import Mathlib

/-!
# lotusgas / crongas: gas tallies over a Lotus execution trace

A shallow embedding of `src/crongas.go` and `src/lotusgas.go`.

* The decoded JSON document (`map[string]interface{}` and friends) is the type `Value`;
  a Go map is an association list read through `index`, which yields `Value.null`
  (Go `nil`) for a missing key, exactly like `m[k]` on a Go map of interfaces.
* A failed type assertion `x.(T)` panics; a panic is the result `none`.
* `uint64` values are natural numbers kept below `2 ^ 64`; every `uint64` addition of the
  source is written with an explicit `% 2 ^ 64`.
* `float64` values are modelled by `F64`: finite values are dyadic rationals `m * 2 ^ e`,
  addition is exact addition followed by rounding to nearest, ties to even, into the
  binary64 format (53 bit significand, exponents `-1074 .. 971`).  The two zeros are not
  told apart: the program only adds floats and converts them to `uint64`, and neither
  operation can distinguish them.
* Go leaves the result of converting a float to `uint64` to the implementation when the
  truncated value does not fit.  That choice is the parameter `impl` of the model.
* `Depth` is a Go `int`.  `TallyCalls` counts the depth in unbounded integers, which is
  what the program computes as long as no `depth+1` leaves the range of the `int`;
  `TallyCallsWrap` is the same function with `depth+1` wrapping around as a 64 bit `int`
  does.  The two results differ only in that each `Depth` is reduced to the 64 bit range
  (`TallyCallsWrap_eq`), and they are equal when every `Depth` is in that range
  (`TallyCallsWrap_eq_of_range`).
* Standard output is the list of the texts written, one per `Printf` call, together with
  a flag that tells whether the run ended in a panic.  A `message.Printer` for English
  renders integers under `%v` and `%d` in groups of three digits separated by commas
  (`fmtGrouped`); `fmt.Sprintf("%d", _)` renders plain digits.
* `Load` (reading and decoding the file) is not part of the model: the commands start
  from the decoded document.
-/

/-! ## float64 -/

/-- A `float64` value: a finite dyadic rational `m * 2 ^ e`, an infinity, or a NaN. -/
inductive F64 where
  | fin (m : Int) (e : Int)
  | inf (neg : Bool)
  | nan
deriving DecidableEq, Repr

/-- Number of halvings (at most `fuel`) that bring `n` to zero. -/
def bitsAux (fuel n : Nat) : Nat :=
  match fuel with
  | 0 => 0
  | f + 1 => if n = 0 then 0 else bitsAux f (n / 2) + 1

/-- Length of the binary representation of `n` (`0` for `n = 0`). -/
def bitLength (n : Nat) : Nat := bitsAux n n

/-- Rounding of the exact value `m * 2 ^ e` to binary64, to nearest with ties to even.
The result exponent is the one that leaves a 53 bit significand, but not below `-1074`
(subnormal range); a result beyond the largest finite value becomes an infinity. -/
def F64.round (m e : Int) : F64 :=
  if m = 0 then .fin 0 0
  else
    let a : Nat := m.natAbs
    let e' : Int := max (e + (bitLength a : Int) - 53) (-1074)
    if e' ≤ e then
      if e' ≤ 971 then .fin (m * 2 ^ (e - e').toNat) e' else .inf (decide (m < 0))
    else
      let k : Nat := (e' - e).toNat
      let q : Nat := a / 2 ^ k
      let r : Nat := a % 2 ^ k
      let half : Nat := 2 ^ (k - 1)
      let q' : Nat := if half < r ∨ (r = half ∧ q % 2 = 1) then q + 1 else q
      let q'' : Nat := if q' = 2 ^ 53 then 2 ^ 52 else q'
      let e'' : Int := if q' = 2 ^ 53 then e' + 1 else e'
      if e'' ≤ 971 then .fin (if m < 0 then -(q'' : Int) else (q'' : Int)) e''
      else .inf (decide (m < 0))

/-- The `float64` addition `x + y` of Go (IEEE 754 binary64, round to nearest even). -/
def F64.add : F64 → F64 → F64
  | .nan, _ => .nan
  | _, .nan => .nan
  | .inf s, .inf t => if s = t then .inf s else .nan
  | .inf s, .fin _ _ => .inf s
  | .fin _ _, .inf t => .inf t
  | .fin m₁ e₁, .fin m₂ e₂ =>
    let e := min e₁ e₂
    F64.round (m₁ * 2 ^ (e₁ - e).toNat + m₂ * 2 ^ (e₂ - e).toNat) e

/-- The integer obtained from `m * 2 ^ e` by discarding the fraction (truncation towards
zero), which is how Go converts a floating-point number to an integer. -/
def F64.trunc (m e : Int) : Int :=
  if 0 ≤ e then m * 2 ^ e.toNat else Int.tdiv m (2 ^ (-e).toNat)

/-- The conversion `uint64(x)` of a `float64`.  When the truncated value fits in a `uint64`
the result is that value; otherwise Go makes the result implementation-dependent, and it
is whatever `impl` says (reduced to 64 bits). -/
def toUint64 (impl : F64 → Nat) : F64 → Nat
  | .fin m e =>
    if 0 ≤ F64.trunc m e ∧ F64.trunc m e < 2 ^ 64 then (F64.trunc m e).toNat
    else impl (.fin m e) % 2 ^ 64
  | x => impl x % 2 ^ 64

/-! ## Decoded JSON -/

/-- A value produced by `json.Unmarshal` into `interface{}`: `nil`, `bool`, `float64`,
`string`, `[]interface{}` or `map[string]interface{}`. -/
inductive Value where
  | null
  | bool (b : Bool)
  | num (f : F64)
  | str (s : String)
  | arr (xs : List Value)
  | obj (kvs : List (String × Value))
deriving Repr

/-- The map index expression `m[k]`: the value stored under `k`, or `nil` when the key
is absent. -/
def index (m : List (String × Value)) (k : String) : Value :=
  match m with
  | [] => .null
  | (k', v) :: rest => if k' = k then v else index rest k

/-- The comparison `v == nil`. -/
def isNil : Value → Bool
  | .null => true
  | _ => false

/-- The type assertion `v.(map[string]interface{})`. -/
def asMap : Value → Option (List (String × Value))
  | .obj m => some m
  | _ => none

/-- The type assertion `v.([]interface{})`. -/
def asSlice : Value → Option (List Value)
  | .arr xs => some xs
  | _ => none

/-- The type assertion `v.(string)`. -/
def asString : Value → Option String
  | .str s => some s
  | _ => none

/-- The type assertion `v.(float64)`. -/
def asFloat64 : Value → Option F64
  | .num f => some f
  | _ => none

/-- Looking a key up never yields something larger than the map. -/
theorem index_sizeOf_le (m : List (String × Value)) (k : String) :
    sizeOf (index m k) ≤ sizeOf m := by
  induction m with
  | nil => simp [index]
  | cons p rest ih =>
    obtain ⟨k', v⟩ := p
    unfold index
    split
    · simp; omega
    · simp; omega

/-- The elements of a slice stored under a key are smaller than the map. -/
theorem asSlice_index_sizeOf_lt (m : List (String × Value)) (k : String) (xs : List Value)
    (h : asSlice (index m k) = some xs) : sizeOf xs < sizeOf m := by
  have h1 := index_sizeOf_le m k
  cases hv : index m k with
  | arr ys =>
    rw [hv] at h h1
    simp [asSlice] at h
    subst h
    simp at h1
    omega
  | null => rw [hv] at h; simp [asSlice] at h
  | bool b => rw [hv] at h; simp [asSlice] at h
  | num f => rw [hv] at h; simp [asSlice] at h
  | str s => rw [hv] at h; simp [asSlice] at h
  | obj o => rw [hv] at h; simp [asSlice] at h

/-! ## Tallies -/

/-- The record `Tally` of the source (`Method`, `SelfGas`, `TotalGas` are `uint64`). -/
structure Tally where
  From : String
  To : String
  Depth : Int
  Method : Nat
  SelfGas : Nat
  TotalGas : Nat
deriving DecidableEq, Repr

/-- The loop `for _, charge := range charges { selfGas += charge.(map...)["tg"].(float64) }`,
started from the accumulator `acc`. -/
def sumCharges : List Value → F64 → Option F64
  | [], acc => some acc
  | charge :: rest, acc =>
    match asMap charge with
    | some c =>
      match asFloat64 (index c "tg") with
      | some g => sumCharges rest (F64.add acc g)
      | none => none
    | none => none

/-- The statement `result[0].TotalGas += totalGas` (indexing an empty slice panics). -/
def addTotal : List Tally → Nat → Option (List Tally)
  | [], _ => none
  | t :: rest, totalGas =>
    some ({ t with TotalGas := (t.TotalGas + totalGas) % 2 ^ 64 } :: rest)

mutual
/-- The function `TallyCalls` of `crongas.go`.  `none` stands for a panic.  The copy in
`lotusgas.go` is `lotusgas.TallyCalls` below.  The depth is counted in unbounded integers;
`TallyCallsWrap` below is the function with the wrap-around of the Go `int`. -/
def TallyCalls (impl : F64 → Nat) (trace : List (String × Value)) (depth : Int) :
    Option (List Tally) :=
  match asMap (index trace "Msg") with
  | none => none
  | some msg =>
    match asSlice (index trace "GasCharges") with
    | none => none
    | some charges =>
      match sumCharges charges (.fin 0 0) with
      | none => none
      | some selfGas =>
        match asString (index msg "From") with
        | none => none
        | some sender =>
          match asString (index msg "To") with
          | none => none
          | some receiver =>
            match asFloat64 (index msg "Method") with
            | none => none
            | some method =>
              let result : List Tally :=
                [{ From := sender, To := receiver, Depth := depth,
                   Method := toUint64 impl method,
                   SelfGas := toUint64 impl selfGas,
                   TotalGas := toUint64 impl selfGas }]
              if isNil (index trace "Subcalls") then addTotal result 0
              else
                match h : asSlice (index trace "Subcalls") with
                | none => none
                | some calls =>
                  match tallySubcalls impl calls depth result 0 with
                  | none => none
                  | some (result', totalGas) => addTotal result' totalGas
termination_by sizeOf trace
decreasing_by
  have := asSlice_index_sizeOf_lt trace "Subcalls" calls h
  omega

/-- The loop over `subcalls.([]interface{})` inside `TallyCalls`, with the loop state
`result`, `totalGas`:
`subResult := TallyCalls(call.(map...), depth+1); result = append(result, subResult...);
totalGas += subResult[0].TotalGas`. -/
def tallySubcalls (impl : F64 → Nat) (calls : List Value) (depth : Int)
    (result : List Tally) (totalGas : Nat) : Option (List Tally × Nat) :=
  match calls with
  | [] => some (result, totalGas)
  | call :: rest =>
    match call with
    | .obj t =>
      match TallyCalls impl t (depth + 1) with
      | none => none
      | some subResult =>
        match subResult with
        | [] => none
        | s :: _ =>
          tallySubcalls impl rest depth (result ++ subResult) ((totalGas + s.TotalGas) % 2 ^ 64)
    | _ => none
termination_by sizeOf calls
decreasing_by
  all_goals simp
  all_goals omega
end

/-! ## `TallyCalls` with the depth of a 64 bit `int` -/

/-- The value that a Go `int` of 64 bits holds when the exact result of an operation is
`x`: the representative of `x` modulo `2 ^ 64` in `-2 ^ 63 .. 2 ^ 63 - 1`. -/
def wrapInt (x : Int) : Int := (x + 2 ^ 63) % 2 ^ 64 - 2 ^ 63

mutual
/-- The function `TallyCalls` with `depth+1` evaluated as a 64 bit Go `int` evaluates it,
wrapping around from `2 ^ 63 - 1` to `-2 ^ 63`.  Everything else is as in `TallyCalls`
above, which computes the same tallies with the depth counted in unbounded integers.  The
text of the function is the same in `crongas.go` and in `lotusgas.go`. -/
def TallyCallsWrap (impl : F64 → Nat) (trace : List (String × Value)) (depth : Int) :
    Option (List Tally) :=
  match asMap (index trace "Msg") with
  | none => none
  | some msg =>
    match asSlice (index trace "GasCharges") with
    | none => none
    | some charges =>
      match sumCharges charges (.fin 0 0) with
      | none => none
      | some selfGas =>
        match asString (index msg "From") with
        | none => none
        | some sender =>
          match asString (index msg "To") with
          | none => none
          | some receiver =>
            match asFloat64 (index msg "Method") with
            | none => none
            | some method =>
              let result : List Tally :=
                [{ From := sender, To := receiver, Depth := depth,
                   Method := toUint64 impl method,
                   SelfGas := toUint64 impl selfGas,
                   TotalGas := toUint64 impl selfGas }]
              if isNil (index trace "Subcalls") then addTotal result 0
              else
                match h : asSlice (index trace "Subcalls") with
                | none => none
                | some calls =>
                  match tallySubcallsWrap impl calls depth result 0 with
                  | none => none
                  | some (result', totalGas) => addTotal result' totalGas
termination_by sizeOf trace
decreasing_by
  have := asSlice_index_sizeOf_lt trace "Subcalls" calls h
  omega

/-- The loop over the subcalls inside `TallyCallsWrap`: the recursive call receives
`depth+1` as the 64 bit `int` that Go computes. -/
def tallySubcallsWrap (impl : F64 → Nat) (calls : List Value) (depth : Int)
    (result : List Tally) (totalGas : Nat) : Option (List Tally × Nat) :=
  match calls with
  | [] => some (result, totalGas)
  | call :: rest =>
    match call with
    | .obj t =>
      match TallyCallsWrap impl t (wrapInt (depth + 1)) with
      | none => none
      | some subResult =>
        match subResult with
        | [] => none
        | s :: _ =>
          tallySubcallsWrap impl rest depth (result ++ subResult)
            ((totalGas + s.TotalGas) % 2 ^ 64)
    | _ => none
termination_by sizeOf calls
decreasing_by
  all_goals simp
  all_goals omega
end

/-- A tally with its `Depth` reduced to the 64 bit `int` range. -/
def wrapDepth (t : Tally) : Tally := { t with Depth := wrapInt t.Depth }

/-! ## The call tree of a trace -/

/-- The subcalls of a trace node: the entries of its `Subcalls` sequence, none when the
field is absent, `null` or not a sequence. -/
def children (trace : List (String × Value)) : List Value :=
  match asSlice (index trace "Subcalls") with
  | some calls => calls
  | none => []

/-- A charge of the right shape: a mapping with a numeric `tg`. -/
def chargeOk : Value → Bool
  | .obj c => (asFloat64 (index c "tg")).isSome
  | _ => false

mutual
/-- The shape the specification requires of an ExecutionTrace node: `Msg` is a mapping with
strings `From`, `To` and a number `Method`; `GasCharges` is a sequence of mappings with a
numeric `tg`; `Subcalls` is absent, `null`, or a sequence of such nodes. -/
def wellFormed (trace : List (String × Value)) : Bool :=
  (match asMap (index trace "Msg") with
    | some msg =>
      (asString (index msg "From")).isSome && (asString (index msg "To")).isSome &&
        (asFloat64 (index msg "Method")).isSome
    | none => false) &&
  (match asSlice (index trace "GasCharges") with
    | some charges => charges.all chargeOk
    | none => false) &&
  (isNil (index trace "Subcalls") ||
    (match h : asSlice (index trace "Subcalls") with
      | some calls => wellFormedAll calls
      | none => false))
termination_by sizeOf trace
decreasing_by
  have := asSlice_index_sizeOf_lt trace "Subcalls" calls h
  omega

/-- Every entry of a `Subcalls` sequence is a well-formed node. -/
def wellFormedAll (calls : List Value) : Bool :=
  match calls with
  | [] => true
  | call :: rest =>
    match call with
    | .obj t => wellFormed t && wellFormedAll rest
    | _ => false
termination_by sizeOf calls
decreasing_by
  all_goals simp
  all_goals omega
end

mutual
/-- Number of descendants of a node: all nodes reachable through `Subcalls` at any level. -/
def descendants (trace : List (String × Value)) : Nat :=
  match h : asSlice (index trace "Subcalls") with
  | some calls => descendantsAll calls
  | none => 0
termination_by sizeOf trace
decreasing_by
  have := asSlice_index_sizeOf_lt trace "Subcalls" calls h
  omega

/-- Number of nodes in the subtrees rooted at the entries of a `Subcalls` sequence. -/
def descendantsAll (calls : List Value) : Nat :=
  match calls with
  | [] => 0
  | call :: rest =>
    match call with
    | .obj t => 1 + descendants t + descendantsAll rest
    | _ => 1 + descendantsAll rest
termination_by sizeOf calls
decreasing_by
  all_goals simp
  all_goals omega
end

/-- The node reached from `trace` by following the path `p` of positions in `Subcalls`. -/
def nodeAt : List (String × Value) → List Nat → Option (List (String × Value))
  | t, [] => some t
  | t, i :: p =>
    match (children t)[i]? with
    | some (.obj c) => nodeAt c p
    | _ => none

/-- Position, in the pre-order listing of the tree of `trace`, of the node at path `p`:
a node comes first, each subcall follows after the whole subtrees of its elder siblings. -/
def preorderIndex : List (String × Value) → List Nat → Nat
  | _, [] => 0
  | t, i :: p =>
    match (children t)[i]? with
    | some (.obj c) => 1 + descendantsAll ((children t).take i) + preorderIndex c p
    | _ => 0

/-! ## Reporting (`main` of `crongas.go`) -/

/-- Insertion of a comma after every third digit of a reversed digit string. -/
def groupRev : List Char → List Char
  | a :: b :: c :: rest =>
    match rest with
    | [] => [a, b, c]
    | _ => a :: b :: c :: ',' :: groupRev rest
  | ds => ds

/-- The rendering of an unsigned integer by `message.NewPrinter(language.English)` under
the verbs `%v` and `%d`: decimal digits, grouped in threes by commas. -/
def fmtGrouped (n : Nat) : String :=
  String.mk (groupRev (Nat.toDigits 10 n).reverse).reverse

/-- The call `strings.Repeat("  ", depth)`, which panics on a negative count. -/
def indent (depth : Int) : Option String :=
  if depth < 0 then none else some (String.join (List.replicate depth.toNat "  "))

/-- What a run of a command wrote to standard output (one entry per `Printf`), and whether
it ended in a panic. -/
structure Output where
  lines : List String
  aborted : Bool
deriving DecidableEq, Repr

namespace crongas

/-- The text of `p.Printf("%s%s->%s:%v self:%v total:%v\n", indent, r.From, r.To, r.Method,
r.SelfGas, r.TotalGas)` for a given indentation. -/
def line (ind : String) (r : Tally) : String :=
  ind ++ r.From ++ "->" ++ r.To ++ ":" ++ fmtGrouped r.Method ++ " self:" ++
    fmtGrouped r.SelfGas ++ " total:" ++ fmtGrouped r.TotalGas ++ "\n"

/-- The loop `for _, r := range tallies` of `main`, with the loop state `totalGas` and the
lines printed so far; the flag tells whether the loop panicked. -/
def printLoop (displayDepth : Int) : List Tally → Nat → List String → Nat × List String × Bool
  | [], totalGas, out => (totalGas, out, false)
  | r :: rest, totalGas, out =>
    if r.Depth < displayDepth then
      match indent r.Depth with
      | none => ((totalGas + r.SelfGas) % 2 ^ 64, out, true)
      | some ind =>
        printLoop displayDepth rest ((totalGas + r.SelfGas) % 2 ^ 64) (out ++ [line ind r])
    else printLoop displayDepth rest ((totalGas + r.SelfGas) % 2 ^ 64) out

/-- The text of `p.Printf("Total gas: %d\n", totalGas)`. -/
def totalLine (totalGas : Nat) : String :=
  "Total gas: " ++ fmtGrouped totalGas ++ "\n"

/-- The command `main` of `crongas.go` on the decoded document `full` (the result of
`Load`) with the flag value `displayDepth`. -/
def main (impl : F64 → Nat) (displayDepth : Int) (full : List (String × Value)) : Output :=
  match asMap (index full "value") with
  | none => ⟨[], true⟩
  | some value =>
    match asMap (index value "active") with
    | none => ⟨[], true⟩
    | some active =>
      match asMap (index active "ExecutionTrace") with
      | none => ⟨[], true⟩
      | some trace =>
        match TallyCalls impl trace 0 with
        | none => ⟨[], true⟩
        | some tallies =>
          match printLoop displayDepth tallies 0 [] with
          | (_, out, true) => ⟨out, true⟩
          | (totalGas, out, false) => ⟨out ++ [totalLine totalGas], false⟩

end crongas

/-! ## `lotusgas.go` -/

namespace lotusgas

/-- The loop over `charges` of `TallyCalls` in `lotusgas.go`. -/
def sumCharges : List Value → F64 → Option F64
  | [], acc => some acc
  | charge :: rest, acc =>
    match asMap charge with
    | some c =>
      match asFloat64 (index c "tg") with
      | some g => sumCharges rest (F64.add acc g)
      | none => none
    | none => none

/-- The statement `result[0].TotalGas += totalGas` of `TallyCalls` in `lotusgas.go`. -/
def addTotal : List Tally → Nat → Option (List Tally)
  | [], _ => none
  | t :: rest, totalGas =>
    some ({ t with TotalGas := (t.TotalGas + totalGas) % 2 ^ 64 } :: rest)

mutual
/-- The function `TallyCalls` of `lotusgas.go`, transcribed from that file on its own.
`none` stands for a panic.  The depth is counted in unbounded integers, as in `TallyCalls`
above. -/
def TallyCalls (impl : F64 → Nat) (trace : List (String × Value)) (depth : Int) :
    Option (List Tally) :=
  match asMap (index trace "Msg") with
  | none => none
  | some msg =>
    match asSlice (index trace "GasCharges") with
    | none => none
    | some charges =>
      match sumCharges charges (.fin 0 0) with
      | none => none
      | some selfGas =>
        match asString (index msg "From") with
        | none => none
        | some sender =>
          match asString (index msg "To") with
          | none => none
          | some receiver =>
            match asFloat64 (index msg "Method") with
            | none => none
            | some method =>
              let result : List Tally :=
                [{ From := sender, To := receiver, Depth := depth,
                   Method := toUint64 impl method,
                   SelfGas := toUint64 impl selfGas,
                   TotalGas := toUint64 impl selfGas }]
              if isNil (index trace "Subcalls") then addTotal result 0
              else
                match h : asSlice (index trace "Subcalls") with
                | none => none
                | some calls =>
                  match tallySubcalls impl calls depth result 0 with
                  | none => none
                  | some (result', totalGas) => addTotal result' totalGas
termination_by sizeOf trace
decreasing_by
  have := asSlice_index_sizeOf_lt trace "Subcalls" calls h
  omega

/-- The loop over the subcalls inside `TallyCalls` of `lotusgas.go`. -/
def tallySubcalls (impl : F64 → Nat) (calls : List Value) (depth : Int)
    (result : List Tally) (totalGas : Nat) : Option (List Tally × Nat) :=
  match calls with
  | [] => some (result, totalGas)
  | call :: rest =>
    match call with
    | .obj t =>
      match TallyCalls impl t (depth + 1) with
      | none => none
      | some subResult =>
        match subResult with
        | [] => none
        | s :: _ =>
          tallySubcalls impl rest depth (result ++ subResult) ((totalGas + s.TotalGas) % 2 ^ 64)
    | _ => none
termination_by sizeOf calls
decreasing_by
  all_goals simp
  all_goals omega
end

/-- The text of `fmt.Sprintf("%d", r.Method)`: plain decimal digits. -/
def fmtPlain (n : Nat) : String :=
  String.mk (Nat.toDigits 10 n)

/-- The effect of the width in the verb `%12v`: spaces on the left up to 12 characters. -/
def pad12 (s : String) : String :=
  String.mk (List.replicate (12 - s.length) ' ') ++ s

/-- The text of `p.Printf("%s%s→%s:%s\t%12v\t%12v\n", indent, r.From, r.To, method,
r.SelfGas, r.TotalGas)` with `method := fmt.Sprintf("%d", r.Method)`. -/
def line (ind : String) (r : Tally) : String :=
  ind ++ r.From ++ "→" ++ r.To ++ ":" ++ fmtPlain r.Method ++ "\t" ++
    pad12 (fmtGrouped r.SelfGas) ++ "\t" ++ pad12 (fmtGrouped r.TotalGas) ++ "\n"

/-- The header row written by `fmt.Printf("call\tself\ttotal\n")`. -/
def header : String := "call\tself\ttotal\n"

/-- The text of `p.Printf("%s\n", label)`: the label itself when it is a string; what the
verb `%s` makes of any other value is left to `other`. -/
def labelLine (other : Value → String) (label : Value) : String :=
  (match label with
    | .str s => s
    | v => other v) ++ "\n"

/-- The inner loop `for _, r := range tallies` of `main`, with the loop state `totalGas`
and the text written so far; the flag tells whether the loop panicked. -/
def printLoop (displayDepth : Int) : List Tally → Nat → List String → Nat × List String × Bool
  | [], totalGas, out => (totalGas, out, false)
  | r :: rest, totalGas, out =>
    if r.Depth < displayDepth then
      match indent r.Depth with
      | none => ((totalGas + r.SelfGas) % 2 ^ 64, out, true)
      | some ind =>
        printLoop displayDepth rest ((totalGas + r.SelfGas) % 2 ^ 64) (out ++ [line ind r])
    else printLoop displayDepth rest ((totalGas + r.SelfGas) % 2 ^ 64) out

/-- The loop `for _, topMsg := range topLevelMsgs` of `main`, started with the text `out`
already written. -/
def mainLoop (impl : F64 → Nat) (other : Value → String) (displayDepth : Int) :
    List Value → List String → Output
  | [], out => ⟨out, false⟩
  | topMsg :: rest, out =>
    match asMap topMsg with
    | none => ⟨out, true⟩
    | some tm =>
      match asMap (index tm "MsgCid") with
      | none => ⟨out, true⟩
      | some cid =>
        match asMap (index tm "ExecutionTrace") with
        | none => ⟨out, true⟩
        | some trace =>
          match TallyCalls impl trace 0 with
          | none => ⟨out, true⟩
          | some tallies =>
            match printLoop displayDepth tallies 0
                (out ++ [labelLine other (index cid "/")]) with
            | (_, out', true) => ⟨out', true⟩
            | (_, out', false) => mainLoop impl other displayDepth rest out'

/-- The command `main` of `lotusgas.go` on the decoded document `full` (the result of
`Load`) with the flag value `displayDepth`. -/
def main (impl : F64 → Nat) (other : Value → String) (displayDepth : Int)
    (full : List (String × Value)) : Output :=
  match asSlice (index full "Trace") with
  | none => ⟨[], true⟩
  | some topLevelMsgs => mainLoop impl other displayDepth topLevelMsgs [header]

end lotusgas

/-! ## Auxiliary notions used in the statements -/

/-- The total gas of the first tally of a sequence (`subResult[0].TotalGas`). -/
def headTotal : List Tally → Nat
  | [] => 0
  | t :: _ => t.TotalGas

/-- The accumulator `totalGas` after the subcall results `subs` have been added to it. -/
def accTotal (total : Nat) (subs : List (List Tally)) : Nat :=
  subs.foldl (fun acc s => (acc + headTotal s) % 2 ^ 64) total

/-- The result `s` of tallying the subcall entry `c` one level below `depth`. -/
def SubResult (impl : F64 → Nat) (depth : Int) (c : Value) (s : List Tally) : Prop :=
  ∃ t, c = Value.obj t ∧ TallyCalls impl t (depth + 1) = some s ∧ s ≠ []

/-- The tally `TallyCalls` builds for the node itself, before the subcalls are visited. -/
def ownTally (impl : F64 → Nat) (trace : List (String × Value)) (depth : Int) : Option Tally :=
  match asMap (index trace "Msg") with
  | none => none
  | some msg =>
    match asSlice (index trace "GasCharges") with
    | none => none
    | some charges =>
      match sumCharges charges (.fin 0 0) with
      | none => none
      | some selfGas =>
        match asString (index msg "From") with
        | none => none
        | some sender =>
          match asString (index msg "To") with
          | none => none
          | some receiver =>
            match asFloat64 (index msg "Method") with
            | none => none
            | some method =>
              some { From := sender, To := receiver, Depth := depth,
                     Method := toUint64 impl method,
                     SelfGas := toUint64 impl selfGas,
                     TotalGas := toUint64 impl selfGas }

/-- The `Subcalls` field is absent, `null` or a sequence. -/
def subcallsOk (trace : List (String × Value)) : Prop :=
  isNil (index trace "Subcalls") = true ∨ (asSlice (index trace "Subcalls")).isSome = true

/-- The `TotalGas` of the tally at position `i` of a tally sequence (`0` past its end). -/
def totalGasAt (ts : List Tally) (i : Nat) : Nat :=
  match ts[i]? with
  | some t => t.TotalGas
  | none => 0

/-- The `tg` values of the charges of a `GasCharges` sequence, in order. -/
def tgValues (charges : List Value) : List F64 :=
  charges.filterMap (fun c => (asMap c).bind (fun m => asFloat64 (index m "tg")))

/-- The `float64` sum of a list of values, added left to right starting from `0`. -/
def floatSum (tgs : List F64) : F64 :=
  tgs.foldl F64.add (.fin 0 0)

/-- The rational number a finite `float64` stands for (`0` for infinities and NaN). -/
def F64.toRat : F64 → ℚ
  | .fin m e => (m : ℚ) * (2 : ℚ) ^ e
  | _ => 0

namespace crongas

/-- The line `main` prints for the tally `r`, indented by two spaces per level. -/
def lineOf (r : Tally) : String :=
  line (String.join (List.replicate r.Depth.toNat "  ")) r

end crongas

namespace lotusgas

/-- The line `main` of `lotusgas.go` prints for the tally `r`, indented by two spaces per
level. -/
def lineOf (r : Tally) : String :=
  line (String.join (List.replicate r.Depth.toNat "  ")) r

/-- What the specification says `lotusgas` prints for one top-level message: its label
line, then the lines of the tallies of its `ExecutionTrace` above the display depth.
`none` when the message or its trace is not of the required shape. -/
def block (impl : F64 → Nat) (other : Value → String) (displayDepth : Int)
    (topMsg : Value) : Option (List String) :=
  match asMap topMsg with
  | none => none
  | some tm =>
    match asMap (index tm "MsgCid") with
    | none => none
    | some cid =>
      match asMap (index tm "ExecutionTrace") with
      | none => none
      | some trace =>
        match TallyCalls impl trace 0 with
        | none => none
        | some tallies =>
          some (labelLine other (index cid "/") ::
            (tallies.filter (fun r => decide (r.Depth < displayDepth))).map lineOf)

end lotusgas

/-- The tally `t` with its `Depth` increased by `k`. -/
def shiftDepth (k : Int) (t : Tally) : Tally :=
  { t with Depth := t.Depth + k }

/-! ## Example traces -/

/-- A trace node with the given message and charges (each charge a mapping with only
`tg`), followed by the fields `extra`. -/
def mkNode (sender receiver : String) (method : F64) (tgs : List F64)
    (extra : List (String × Value)) : List (String × Value) :=
  [("Msg", .obj [("From", .str sender), ("To", .str receiver), ("Method", .num method)]),
   ("GasCharges", .arr (tgs.map (fun g => .obj [("tg", .num g)])))] ++ extra

/-- Scenario 1: charges `100` and `50`, no `Subcalls` field. -/
def scenario1 : List (String × Value) :=
  mkNode "f01" "f02" (.fin 2 0) [.fin 100 0, .fin 50 0] []

/-- Scenario 2: a root with charge `10` and one subcall with charge `20`. -/
def scenario2 : List (String × Value) :=
  mkNode "f01" "f02" (.fin 2 0) [.fin 10 0]
    [("Subcalls", .arr [.obj (mkNode "f02" "f03" (.fin 3 0) [.fin 20 0] [])])]

/-- Scenario 5: a root with two subcalls, each with one subcall of its own. -/
def scenario5 : List (String × Value) :=
  mkNode "r" "a" (.fin 0 0) [.fin 1 0]
    [("Subcalls", .arr [
      .obj (mkNode "a" "b" (.fin 1 0) [.fin 2 0]
        [("Subcalls", .arr [.obj (mkNode "b" "c" (.fin 2 0) [.fin 3 0] [])])]),
      .obj (mkNode "a" "d" (.fin 3 0) [.fin 4 0]
        [("Subcalls", .arr [.obj (mkNode "d" "e" (.fin 4 0) [.fin 5 0]
          [("Subcalls", .null)])])])])]

/-- A root without charges whose two subcalls are charged `2 ^ 63` each
(`9223372036854775808` in the JSON text). -/
def overflowTree : List (String × Value) :=
  mkNode "r" "a" (.fin 0 0) []
    [("Subcalls", .arr [
      .obj (mkNode "a" "b" (.fin 0 0) [.fin 1 63] []),
      .obj (mkNode "a" "c" (.fin 0 0) [.fin 1 63] [])])]

/-- A node with the single charge `-0.5`. -/
def negHalfNode : List (String × Value) :=
  mkNode "a" "b" (.fin 0 0) [.fin (-1) (-1)] []

/-- A node with the two charges `0.5` and `0.5`. -/
def halvesNode : List (String × Value) :=
  mkNode "a" "b" (.fin 0 0) [.fin 1 (-1), .fin 1 (-1)] []

/-- The document read by `crongas`, with `trace` at `value.active.ExecutionTrace`. -/
def crongasDoc (trace : List (String × Value)) : List (String × Value) :=
  [("value", .obj [("active", .obj [("ExecutionTrace", .obj trace)])])]

/-- A node without `Msg.From`. -/
def brokenChild : List (String × Value) :=
  [("Msg", .obj [("To", .str "f03"), ("Method", .num (.fin 3 0))]),
   ("GasCharges", .arr [.obj [("tg", .num (.fin 20 0))]])]

/-- The tree of Scenario 2 with `Msg.From` missing in the subcall. -/
def brokenTree : List (String × Value) :=
  mkNode "f01" "f02" (.fin 2 0) [.fin 10 0] [("Subcalls", .arr [.obj brokenChild])]

/-- A node whose method id is `1000`, charged `5`. -/
def method1000Node : List (String × Value) :=
  mkNode "f01" "f02" (.fin 1000 0) [.fin 5 0] []

/-- A top-level message of the document read by `lotusgas`. -/
def topMsg (label : String) (trace : List (String × Value)) : Value :=
  .obj [("MsgCid", .obj [("/", .str label)]), ("ExecutionTrace", .obj trace)]

/-- The document read by `lotusgas`, with the top-level messages `msgs`. -/
def lotusDoc (msgs : List Value) : List (String × Value) :=
  [("Trace", .arr msgs)]

/-! ## One level of `TallyCalls` -/

theorem tallySubcalls_eq_some (impl : F64 → Nat) (depth : Int) (calls : List Value) :
    ∀ (result : List Tally) (total : Nat) (r : List Tally × Nat),
      tallySubcalls impl calls depth result total = some r ↔
        ∃ subs, List.Forall₂ (SubResult impl depth) calls subs ∧
          r = (result ++ subs.flatten, accTotal total subs) := by
  induction calls with
  | nil =>
    intro result total r
    rw [tallySubcalls]
    constructor
    · intro h
      refine ⟨[], List.Forall₂.nil, ?_⟩
      simp at h
      simp [accTotal, ← h]
    · rintro ⟨subs, hf, rfl⟩
      cases hf
      simp [accTotal]
  | cons c rest ih =>
    intro result total r
    constructor
    · intro h
      cases c with
      | obj t =>
        rw [tallySubcalls] at h
        split at h
        · exact absurd h (by simp)
        · rename_i subResult hsub
          split at h
          · exact absurd h (by simp)
          · rename_i s ss
            obtain ⟨subs, hf, hr⟩ := (ih _ _ _).1 h
            refine ⟨(s :: ss) :: subs, List.Forall₂.cons ⟨t, rfl, hsub, by simp⟩ hf, ?_⟩
            rw [hr]
            simp [accTotal, headTotal]
      | _ => simp [tallySubcalls] at h
    · rintro ⟨subs, hf, rfl⟩
      cases hf with
      | cons hc hrest =>
        rename_i s subs'
        obtain ⟨t, rfl, hsub, hne⟩ := hc
        rw [tallySubcalls]
        simp only [hsub]
        cases s with
        | nil => exact absurd rfl hne
        | cons s0 ss =>
          simp only
          rw [(ih _ _ _).2 ⟨subs', hrest, rfl⟩]
          simp [accTotal, headTotal]

theorem children_of_isNil (trace : List (String × Value))
    (h : isNil (index trace "Subcalls") = true) : children trace = [] := by
  unfold children
  cases hv : index trace "Subcalls" <;> simp [hv, isNil, asSlice] at h ⊢

/-- The rest of `TallyCalls` once the node's own tally is built: the visit of the subcalls
and the final update of `result[0].TotalGas`. -/
theorem TallyCalls_eq_own (impl : F64 → Nat) (trace : List (String × Value)) (depth : Int) :
    TallyCalls impl trace depth =
      match ownTally impl trace depth with
      | none => none
      | some own =>
        if isNil (index trace "Subcalls") then addTotal [own] 0
        else
          match asSlice (index trace "Subcalls") with
          | none => none
          | some calls =>
            match tallySubcalls impl calls depth [own] 0 with
            | none => none
            | some (result', totalGas) => addTotal result' totalGas := by
  rw [TallyCalls]
  unfold ownTally
  split
  · rfl
  split
  · rfl
  split
  · rfl
  split
  · rfl
  split
  · rfl
  split
  · rfl
  simp only []
  split
  · rfl
  · split <;> simp only [*]

theorem children_of_asSlice (trace : List (String × Value)) (calls : List Value)
    (h : asSlice (index trace "Subcalls") = some calls) : children trace = calls := by
  unfold children
  rw [h]

theorem TallyCalls_eq_some (impl : F64 → Nat) (trace : List (String × Value)) (depth : Int)
    (ts : List Tally) :
    TallyCalls impl trace depth = some ts ↔
      ∃ own subs, ownTally impl trace depth = some own ∧ subcallsOk trace ∧
        List.Forall₂ (SubResult impl depth) (children trace) subs ∧
        ts = { own with TotalGas := (own.TotalGas + accTotal 0 subs) % 2 ^ 64 } ::
          subs.flatten := by
  rw [TallyCalls_eq_own]
  cases ho : ownTally impl trace depth with
  | none => simp
  | some own =>
    simp only [Option.some.injEq, exists_and_left, exists_eq_left']
    by_cases hn : isNil (index trace "Subcalls") = true
    · rw [if_pos hn, children_of_isNil trace hn]
      constructor
      · intro h
        refine ⟨Or.inl hn, [], List.Forall₂.nil, ?_⟩
        simp [addTotal] at h
        simp [accTotal, ← h]
      · rintro ⟨-, subs, hf, rfl⟩
        cases hf
        simp [addTotal, accTotal]
    · rw [if_neg hn]
      cases hs : asSlice (index trace "Subcalls") with
      | none =>
        simp only [false_iff, reduceCtorEq]
        rintro ⟨hok, -⟩
        rcases hok with h | h
        · exact hn h
        · simp [hs] at h
      | some calls =>
        rw [children_of_asSlice trace calls hs]
        simp only
        constructor
        · intro h
          split at h
          · exact absurd h (by simp)
          · rename_i result' totalGas hsub
            obtain ⟨subs, hf, hr⟩ := (tallySubcalls_eq_some impl depth calls _ _ _).1 hsub
            simp only [Prod.mk.injEq] at hr
            obtain ⟨rfl, rfl⟩ := hr
            refine ⟨Or.inr (by simp [hs]), subs, hf, ?_⟩
            simp [addTotal] at h
            rw [← h]
            norm_num
        · rintro ⟨-, subs, hf, rfl⟩
          rw [(tallySubcalls_eq_some impl depth calls _ _ _).2 ⟨subs, hf, rfl⟩]
          simp [addTotal]

/-! ## Induction over the call tree -/

theorem children_sizeOf_le (trace : List (String × Value)) :
    sizeOf (children trace) ≤ sizeOf trace := by
  unfold children
  split
  · rename_i calls h
    exact Nat.le_of_lt (asSlice_index_sizeOf_lt trace "Subcalls" calls h)
  · cases trace with
    | nil => simp
    | cons p rest => simp; omega

/-- Induction over a trace: a property holds of a node as soon as it holds of the nodes
among its subcalls. -/
theorem trace_induction {P : List (String × Value) → Prop}
    (step : ∀ trace, (∀ t, Value.obj t ∈ children trace → P t) → P trace) :
    ∀ trace, P trace := by
  intro trace
  induction' h : sizeOf trace using Nat.strong_induction_on with n ih generalizing trace
  apply step
  intro t ht
  refine ih (sizeOf t) ?_ t rfl
  have h1 := children_sizeOf_le trace
  have h2 := List.sizeOf_lt_of_mem ht
  simp at h2
  omega

theorem toUint64_lt (impl : F64 → Nat) (x : F64) : toUint64 impl x < 2 ^ 64 := by
  unfold toUint64
  split
  · split
    · rename_i h
      omega
    · exact Nat.mod_lt _ (by norm_num)
  · exact Nat.mod_lt _ (by norm_num)

theorem ownTally_fields (impl : F64 → Nat) (trace : List (String × Value)) (depth : Int)
    (own : Tally) (h : ownTally impl trace depth = some own) :
    own.Depth = depth ∧ own.TotalGas = own.SelfGas ∧ own.SelfGas < 2 ^ 64 := by
  unfold ownTally at h
  repeat' split at h
  all_goals first
    | (simp only [Option.some.injEq] at h
       subst h
       exact ⟨rfl, rfl, toUint64_lt _ _⟩)
    | simp at h

theorem accTotal_mod (subs : List (List Tally)) :
    ∀ total, accTotal total subs % 2 ^ 64 = (total + (subs.map headTotal).sum) % 2 ^ 64 := by
  induction subs with
  | nil => intro total; simp [accTotal]
  | cons s rest ih =>
    intro total
    have h := ih ((total + headTotal s) % 2 ^ 64)
    simp only [accTotal, List.foldl_cons, List.map_cons, List.sum_cons] at h ⊢
    rw [h]
    omega

theorem accTotal_lt (subs : List (List Tally)) :
    ∀ total, total < 2 ^ 64 → accTotal total subs < 2 ^ 64 := by
  induction subs with
  | nil => intro total h; simpa [accTotal] using h
  | cons s rest ih =>
    intro total _
    simp only [accTotal, List.foldl_cons]
    exact ih _ (Nat.mod_lt _ (by norm_num))

theorem TallyCalls_ne_nil (impl : F64 → Nat) (trace : List (String × Value)) (depth : Int)
    (ts : List Tally) (h : TallyCalls impl trace depth = some ts) : ts ≠ [] := by
  obtain ⟨own, subs, -, -, -, rfl⟩ := (TallyCalls_eq_some impl trace depth ts).1 h
  simp

theorem descendants_eq (trace : List (String × Value)) :
    descendants trace = descendantsAll (children trace) := by
  rw [descendants]
  unfold children
  split
  · rename_i calls h
    simp [h]
  · rename_i h
    simp [h, descendantsAll]

/-- The results of the subcalls have as many tallies as the subcalls have nodes, when each
result has the length of its own subtree. -/
theorem flatten_length_of_subResults (impl : F64 → Nat) (depth : Int) (calls : List Value)
    (subs : List (List Tally)) (hf : List.Forall₂ (SubResult impl depth) calls subs)
    (ih : ∀ t, Value.obj t ∈ calls → ∀ d ts, TallyCalls impl t d = some ts →
      ts.length = 1 + descendants t) :
    subs.flatten.length = descendantsAll calls := by
  induction hf with
  | nil => simp [descendantsAll]
  | cons hc _ ihf =>
    rename_i c s cs ss
    obtain ⟨t, rfl, hs, -⟩ := hc
    rw [descendantsAll]
    simp only [List.flatten_cons, List.length_append]
    rw [ih t (by simp) _ _ hs, ihf (fun t ht => ih t (List.mem_cons_of_mem _ ht))]

theorem TallyCalls_length (impl : F64 → Nat) (trace : List (String × Value)) :
    ∀ depth ts, TallyCalls impl trace depth = some ts → ts.length = 1 + descendants trace := by
  induction trace using trace_induction with
  | step trace ih =>
    intro depth ts h
    obtain ⟨own, subs, -, -, hf, rfl⟩ := (TallyCalls_eq_some impl trace depth ts).1 h
    rw [descendants_eq, List.length_cons,
      flatten_length_of_subResults impl depth _ subs hf ih]
    omega

/-! ## Success of `TallyCalls` and well-formed traces -/

theorem sumCharges_isSome (charges : List Value) :
    ∀ acc, (sumCharges charges acc).isSome = charges.all chargeOk := by
  induction charges with
  | nil => intro acc; simp [sumCharges]
  | cons c rest ih =>
    intro acc
    cases c with
    | obj m =>
      cases hg : asFloat64 (index m "tg") with
      | none => simp [sumCharges, asMap, chargeOk, hg]
      | some g => simp [sumCharges, asMap, chargeOk, hg, ih]
    | _ => simp [sumCharges, asMap, chargeOk]

theorem ownTally_isSome (impl : F64 → Nat) (trace : List (String × Value)) (depth : Int) :
    (ownTally impl trace depth).isSome =
      ((match asMap (index trace "Msg") with
        | some msg =>
          (asString (index msg "From")).isSome && (asString (index msg "To")).isSome &&
            (asFloat64 (index msg "Method")).isSome
        | none => false) &&
      (match asSlice (index trace "GasCharges") with
        | some charges => charges.all chargeOk
        | none => false)) := by
  unfold ownTally
  cases asMap (index trace "Msg") with
  | none => simp
  | some msg =>
    cases asSlice (index trace "GasCharges") with
    | none => simp
    | some charges =>
      have hs := sumCharges_isSome charges (.fin 0 0)
      cases hsum : sumCharges charges (.fin 0 0) with
      | none =>
        rw [hsum] at hs
        simp at hs
        simp [hsum]
        intro _ _ _
        obtain ⟨x, hx, hx'⟩ := hs
        exact ⟨x, hx, by simpa using hx'⟩
      | some selfGas =>
        rw [hsum] at hs
        simp only [Option.isSome_some] at hs
        simp only [← hs, Bool.and_true, hsum]
        cases asString (index msg "From") <;> cases asString (index msg "To") <;>
          cases asFloat64 (index msg "Method") <;> simp

theorem wellFormedAll_iff (calls : List Value) :
    wellFormedAll calls = true ↔
      ∀ c ∈ calls, ∃ t, c = Value.obj t ∧ wellFormed t = true := by
  induction calls with
  | nil => simp [wellFormedAll]
  | cons c rest ih =>
    cases c with
    | obj t =>
      rw [wellFormedAll]
      simp [ih]
    | _ => simp [wellFormedAll]

theorem wellFormed_iff (impl : F64 → Nat) (trace : List (String × Value)) (depth : Int) :
    wellFormed trace = true ↔
      (ownTally impl trace depth).isSome = true ∧ subcallsOk trace ∧
        ∀ c ∈ children trace, ∃ t, c = Value.obj t ∧ wellFormed t = true := by
  rw [wellFormed, ownTally_isSome]
  simp only [Bool.and_eq_true, Bool.or_eq_true, and_assoc]
  refine and_congr_right (fun _ => and_congr_right (fun _ => ?_))
  unfold subcallsOk
  by_cases hn : isNil (index trace "Subcalls") = true
  · rw [children_of_isNil trace hn]
    simp [hn]
  · cases hs : asSlice (index trace "Subcalls") with
    | none => simp [hn]
    | some calls =>
      rw [children_of_asSlice trace calls hs]
      simp [hn, wellFormedAll_iff]

theorem exists_subResults_iff (impl : F64 → Nat) (depth : Int) (calls : List Value) :
    (∃ subs, List.Forall₂ (SubResult impl depth) calls subs) ↔
      ∀ c ∈ calls, ∃ t, c = Value.obj t ∧ (TallyCalls impl t (depth + 1)).isSome = true := by
  induction calls with
  | nil => simp
  | cons c rest ih =>
    constructor
    · rintro ⟨subs, hf⟩
      cases hf with
      | cons hc hrest =>
        intro c' hc'
        rcases List.mem_cons.1 hc' with rfl | hmem
        · obtain ⟨t, rfl, hs, -⟩ := hc
          exact ⟨t, rfl, by simp [hs]⟩
        · exact ih.1 ⟨_, hrest⟩ c' hmem
    · intro h
      obtain ⟨t, rfl, ht⟩ := h c (by simp)
      obtain ⟨s, hs⟩ := Option.isSome_iff_exists.1 ht
      obtain ⟨subs, hf⟩ := ih.2 (fun c' hc' => h c' (List.mem_cons_of_mem _ hc'))
      exact ⟨s :: subs,
        List.Forall₂.cons ⟨t, rfl, hs, TallyCalls_ne_nil impl t _ s hs⟩ hf⟩

theorem TallyCalls_isSome_iff (impl : F64 → Nat) (trace : List (String × Value)) :
    ∀ depth, (TallyCalls impl trace depth).isSome = true ↔ wellFormed trace = true := by
  induction trace using trace_induction with
  | step trace ih =>
    intro depth
    rw [wellFormed_iff impl trace depth, Option.isSome_iff_exists]
    constructor
    · rintro ⟨ts, h⟩
      obtain ⟨own, subs, ho, hok, hf, -⟩ := (TallyCalls_eq_some impl trace depth ts).1 h
      refine ⟨by simp [ho], hok, ?_⟩
      intro c hc
      obtain ⟨t, rfl, ht⟩ := (exists_subResults_iff impl depth _).1 ⟨subs, hf⟩ c hc
      exact ⟨t, rfl, (ih t hc _).1 ht⟩
    · rintro ⟨ho, hok, hc⟩
      obtain ⟨own, ho⟩ := Option.isSome_iff_exists.1 ho
      obtain ⟨subs, hf⟩ := (exists_subResults_iff impl depth _).2 (fun c hmem => by
        obtain ⟨t, rfl, ht⟩ := hc c hmem
        exact ⟨t, rfl, (ih t hmem _).2 ht⟩)
      exact ⟨_, (TallyCalls_eq_some impl trace depth _).2 ⟨own, subs, ho, hok, hf, rfl⟩⟩

/-! ## The tallies of the nodes of the subtree -/

theorem forall₂_getElem? {α β : Type} {R : α → β → Prop} {l₁ : List α} {l₂ : List β}
    (hf : List.Forall₂ R l₁ l₂) :
    ∀ (i : Nat) (a : α), l₁[i]? = some a → ∃ b, l₂[i]? = some b ∧ R a b := by
  induction hf with
  | nil => intro i a h; simp at h
  | cons hab _ ih =>
    intro i a h
    cases i with
    | zero =>
      simp only [List.getElem?_cons_zero, Option.some.injEq] at h
      subst h
      exact ⟨_, by simp, hab⟩
    | succ j =>
      simp only [List.getElem?_cons_succ] at h ⊢
      exact ih j a h

theorem flatten_split {α : Type} (subs : List (List α)) :
    ∀ (i : Nat) (s : List α), subs[i]? = some s →
      subs.flatten = (subs.take i).flatten ++ s ++ (subs.drop (i + 1)).flatten := by
  induction subs with
  | nil => intro i s h; simp at h
  | cons x rest ih =>
    intro i s h
    cases i with
    | zero =>
      simp only [List.getElem?_cons_zero, Option.some.injEq] at h
      subst h
      simp
    | succ j =>
      simp only [List.getElem?_cons_succ] at h
      simp [ih j s h]

theorem forall₂_take' {α β : Type} {R : α → β → Prop} {l₁ : List α} {l₂ : List β}
    (hf : List.Forall₂ R l₁ l₂) : ∀ i, List.Forall₂ R (l₁.take i) (l₂.take i) := by
  induction hf with
  | nil => intro i; simp
  | cons hab _ ih =>
    intro i
    cases i with
    | zero => simp
    | succ j => exact List.Forall₂.cons hab (ih j)

/-- The tallies that precede the result of the subcall at position `i` are as many as the
nodes of the subtrees of its elder siblings. -/
theorem take_flatten_length (impl : F64 → Nat) (depth : Int) (calls : List Value)
    (subs : List (List Tally)) (hf : List.Forall₂ (SubResult impl depth) calls subs)
    (i : Nat) : (subs.take i).flatten.length = descendantsAll (calls.take i) :=
  flatten_length_of_subResults impl depth _ _ (forall₂_take' hf i)
    (fun t _ d ts h => TallyCalls_length impl t d ts h)

/-- The tallies of the subtree of the node at path `p` form a block of the result, which
starts at the pre-order position of that node and is what `TallyCalls` returns for that
node at its own depth. -/
theorem subtree_block (impl : F64 → Nat) (p : List Nat) :
    ∀ (n : List (String × Value)) (d : Int) (ts : List Tally) (m : List (String × Value)),
      TallyCalls impl n d = some ts → nodeAt n p = some m →
      ∃ ms pre post, TallyCalls impl m (d + p.length) = some ms ∧
        ts = pre ++ ms ++ post ∧ pre.length = preorderIndex n p := by
  induction p with
  | nil =>
    intro n d ts m h hm
    simp only [nodeAt, Option.some.injEq] at hm
    subst hm
    exact ⟨ts, [], [], by simpa using h, by simp, by simp [preorderIndex]⟩
  | cons i p ih =>
    intro n d ts m h hm
    obtain ⟨own, subs, -, -, hf, rfl⟩ := (TallyCalls_eq_some impl n d ts).1 h
    rw [nodeAt] at hm
    rw [preorderIndex]
    cases hc : (children n)[i]? with
    | none => simp [hc] at hm
    | some c =>
      cases c with
      | obj t =>
        simp only [hc] at hm ⊢
        obtain ⟨s, hs, t', ht', hst, -⟩ := forall₂_getElem? hf i _ hc
        simp only [Value.obj.injEq] at ht'
        subst ht'
        obtain ⟨ms, pre, post, hms, hsplit, hlen⟩ := ih t (d + 1) s m hst hm
        refine ⟨ms, { own with TotalGas := (own.TotalGas + accTotal 0 subs) % 2 ^ 64 } ::
            ((subs.take i).flatten ++ pre),
          post ++ (subs.drop (i + 1)).flatten, ?_, ?_, ?_⟩
        · rw [← hms]
          congr 1
          simp only [List.length_cons]
          push_cast
          ring
        · rw [flatten_split subs i s hs, hsplit]
          simp
        · simp only [List.length_cons, List.length_append, hlen,
            take_flatten_length impl d _ subs hf i]
          omega
      | _ => simp [hc] at hm

/-- The tally at the pre-order position of the node at path `p` is the first tally that
`TallyCalls` returns for that node at its own depth. -/
theorem tally_at (impl : F64 → Nat) (p : List Nat) (n : List (String × Value)) (d : Int)
    (ts : List Tally) (m : List (String × Value))
    (h : TallyCalls impl n d = some ts) (hm : nodeAt n p = some m) :
    ∃ t rest, TallyCalls impl m (d + p.length) = some (t :: rest) ∧
      ts[preorderIndex n p]? = some t := by
  obtain ⟨ms, pre, post, hms, rfl, hlen⟩ := subtree_block impl p n d ts m h hm
  cases ms with
  | nil => exact absurd rfl (TallyCalls_ne_nil impl m _ _ hms)
  | cons t rest =>
    refine ⟨t, rest, hms, ?_⟩
    rw [← hlen, List.append_assoc, List.getElem?_append_right (Nat.le_refl _)]
    simp

theorem nodeAt_append (p : List Nat) :
    ∀ (n : List (String × Value)) (q : List Nat),
      nodeAt n (p ++ q) = (nodeAt n p).bind (fun m => nodeAt m q) := by
  induction p with
  | nil => intro n q; simp [nodeAt]
  | cons i p ih =>
    intro n q
    simp only [List.cons_append, nodeAt]
    cases hc : (children n)[i]? with
    | none => simp
    | some c =>
      cases c with
      | obj t => simp [ih]
      | _ => simp

theorem sum_map_range_getElem {α : Type} (l : List α) (f : Nat → Nat) (g : α → Nat)
    (h : ∀ j a, l[j]? = some a → f j = g a) :
    ((List.range l.length).map f).sum = (l.map g).sum := by
  congr 1
  apply List.ext_getElem?
  intro j
  by_cases hj : j < l.length
  · simp [hj, List.getElem?_range, h j l[j] (by simp [hj])]
  · simp [hj, List.getElem?_eq_none (Nat.le_of_not_lt hj)]
    omega

/-- The total of a node is its self gas plus the totals of its subcalls, in `uint64`
arithmetic, for every node of the subtree. -/
theorem TallyCalls_totalGas (impl : F64 → Nat) (n : List (String × Value)) (d : Int)
    (ts : List Tally) (h : TallyCalls impl n d = some ts)
    (p : List Nat) (m : List (String × Value)) (hm : nodeAt n p = some m) :
    ∃ t, ts[preorderIndex n p]? = some t ∧
      (∀ j, j < (children m).length → (ts[preorderIndex n (p ++ [j])]?).isSome = true) ∧
      t.TotalGas = (t.SelfGas + ((List.range (children m).length).map
        (fun j => totalGasAt ts (preorderIndex n (p ++ [j])))).sum) % 2 ^ 64 := by
  obtain ⟨t, rest, hms, ht⟩ := tally_at impl p n d ts m h hm
  obtain ⟨own, subs, ho, -, hf, hcons⟩ := (TallyCalls_eq_some impl m _ _).1 hms
  obtain ⟨-, hts, hlt⟩ := ownTally_fields impl m _ own ho
  simp only [List.cons.injEq] at hcons
  obtain ⟨rfl, -⟩ := hcons
  have key : ∀ j c, (children m)[j]? = some c →
      ∃ s tc, subs[j]? = some s ∧ ts[preorderIndex n (p ++ [j])]? = some tc ∧
        headTotal s = tc.TotalGas := by
    intro j c hc
    obtain ⟨s, hs, tj, rfl, hsj, -⟩ := forall₂_getElem? hf j c hc
    have hnode : nodeAt n (p ++ [j]) = some tj := by
      rw [nodeAt_append, hm]
      simp [nodeAt, hc]
    obtain ⟨tc, rc, htc, hidx⟩ := tally_at impl (p ++ [j]) n d ts tj h hnode
    have hd : d + ((p ++ [j]).length : Int) = d + (p.length : Int) + 1 := by
      simp only [List.length_append, List.length_singleton]
      push_cast
      ring
    rw [hd, hsj] at htc
    simp only [Option.some.injEq] at htc
    subst htc
    exact ⟨_, tc, hs, hidx, rfl⟩
  refine ⟨_, ht, ?_, ?_⟩
  · intro j hj
    obtain ⟨s, tc, -, hidx, -⟩ := key j (children m)[j] (by simp [hj])
    simp [hidx]
  · have hlen : (children m).length = subs.length := hf.length_eq
    have hsum : ((List.range (children m).length).map
        (fun j => totalGasAt ts (preorderIndex n (p ++ [j])))).sum =
        (subs.map headTotal).sum := by
      rw [hlen]
      apply sum_map_range_getElem
      intro j s hs
      have hj : j < (children m).length := by
        rw [hlen]
        exact (List.getElem?_eq_some_iff.1 hs).1
      obtain ⟨s', tc, hs', hidx, hhead⟩ := key j (children m)[j] (by simp [hj])
      rw [hs] at hs'
      simp only [Option.some.injEq] at hs'
      subst hs'
      simp [totalGasAt, hidx, hhead]
    simp only [hsum, hts]
    have hacc := accTotal_mod subs 0
    have hacclt := accTotal_lt subs 0 (by norm_num)
    rw [Nat.mod_eq_of_lt hacclt] at hacc
    rw [hacc]
    omega

theorem TallyCalls_head_depth (impl : F64 → Nat) (n : List (String × Value)) (d : Int)
    (t : Tally) (rest : List Tally) (h : TallyCalls impl n d = some (t :: rest)) :
    t.Depth = d := by
  obtain ⟨own, subs, ho, -, -, hcons⟩ := (TallyCalls_eq_some impl n d _).1 h
  simp only [List.cons.injEq] at hcons
  obtain ⟨rfl, -⟩ := hcons
  exact (ownTally_fields impl n d own ho).1

theorem TallyCalls_head_total_lt (impl : F64 → Nat) (n : List (String × Value)) (d : Int)
    (ts : List Tally) (h : TallyCalls impl n d = some ts) : headTotal ts < 2 ^ 64 := by
  obtain ⟨own, subs, -, -, -, rfl⟩ := (TallyCalls_eq_some impl n d _).1 h
  exact Nat.mod_lt _ (by norm_num)

theorem forall₂_mem_right {α β : Type} {R : α → β → Prop} {l₁ : List α} {l₂ : List β}
    (hf : List.Forall₂ R l₁ l₂) : ∀ b ∈ l₂, ∃ a ∈ l₁, R a b := by
  induction hf with
  | nil => intro b hb; simp at hb
  | cons hab _ ih =>
    intro b hb
    rcases List.mem_cons.1 hb with rfl | hmem
    · exact ⟨_, by simp, hab⟩
    · obtain ⟨a, ha, hr⟩ := ih b hmem
      exact ⟨a, List.mem_cons_of_mem _ ha, hr⟩

/-- No tally is shallower than the depth `TallyCalls` was called with. -/
theorem TallyCalls_depth_ge (impl : F64 → Nat) (trace : List (String × Value)) :
    ∀ depth ts, TallyCalls impl trace depth = some ts → ∀ t ∈ ts, depth ≤ t.Depth := by
  induction trace using trace_induction with
  | step trace ih =>
    intro depth ts h t ht
    obtain ⟨own, subs, ho, -, hf, rfl⟩ := (TallyCalls_eq_some impl trace depth ts).1 h
    rcases List.mem_cons.1 ht with rfl | hmem
    · exact le_of_eq (ownTally_fields impl trace depth own ho).1.symm
    · obtain ⟨s, hs, hts⟩ := List.mem_flatten.1 hmem
      obtain ⟨c, hc, tc, rfl, hsc, -⟩ := forall₂_mem_right hf s hs
      have := ih tc hc (depth + 1) s hsc t hts
      omega

/-- Modulo `2 ^ 64`, the self gas of the tallies of the subcalls adds up to the totals of
the first tallies of the subcall results, when this holds of each subcall. -/
theorem flatten_selfGas_mod (impl : F64 → Nat) (depth : Int) (calls : List Value)
    (subs : List (List Tally)) (hf : List.Forall₂ (SubResult impl depth) calls subs)
    (ih : ∀ t, Value.obj t ∈ calls → ∀ d ts, TallyCalls impl t d = some ts →
      (ts.map Tally.SelfGas).sum % 2 ^ 64 = headTotal ts) :
    (subs.flatten.map Tally.SelfGas).sum % 2 ^ 64 = (subs.map headTotal).sum % 2 ^ 64 := by
  induction hf with
  | nil => simp
  | cons hc _ ihf =>
    rename_i c s cs ss
    obtain ⟨t, rfl, hs, -⟩ := hc
    have h1 := ih t (by simp) _ _ hs
    have h2 := ihf (fun t ht => ih t (List.mem_cons_of_mem _ ht))
    simp only [List.flatten_cons, List.map_append, List.sum_append, List.map_cons,
      List.sum_cons]
    omega

/-- Modulo `2 ^ 64`, the self gas of all tallies of a result adds up to the total gas of
its first tally. -/
theorem selfGas_sum_mod (impl : F64 → Nat) (trace : List (String × Value)) :
    ∀ depth ts, TallyCalls impl trace depth = some ts →
      (ts.map Tally.SelfGas).sum % 2 ^ 64 = headTotal ts := by
  induction trace using trace_induction with
  | step trace ih =>
    intro depth ts h
    obtain ⟨own, subs, ho, -, hf, rfl⟩ := (TallyCalls_eq_some impl trace depth ts).1 h
    obtain ⟨-, hts, -⟩ := ownTally_fields impl trace depth own ho
    have h1 := flatten_selfGas_mod impl depth _ subs hf ih
    have hacc := accTotal_mod subs 0
    simp only [List.map_cons, List.sum_cons, headTotal, hts]
    omega

namespace crongas

/-- The loop of `main` on tallies of non-negative depth: it never panics, it adds every
`SelfGas` to `totalGas`, and it prints the lines of the tallies above the display depth. -/
theorem printLoop_eq (displayDepth : Int) :
    ∀ (ts : List Tally) (acc : Nat) (out : List String),
      (∀ r ∈ ts, 0 ≤ r.Depth) → acc < 2 ^ 64 →
      printLoop displayDepth ts acc out =
        ((acc + (ts.map Tally.SelfGas).sum) % 2 ^ 64,
          out ++ (ts.filter (fun r => decide (r.Depth < displayDepth))).map lineOf,
          false) := by
  intro ts
  induction ts with
  | nil =>
    intro acc out _ hacc
    simp only [printLoop, List.map_nil, List.sum_nil, Nat.add_zero, List.filter_nil,
      List.append_nil, Nat.mod_eq_of_lt hacc]
  | cons r rest ih =>
    intro acc out hd hacc
    have hr : 0 ≤ r.Depth := hd r (by simp)
    have hrest : ∀ r' ∈ rest, 0 ≤ r'.Depth := fun r' h => hd r' (List.mem_cons_of_mem _ h)
    have hlt : (acc + r.SelfGas) % 2 ^ 64 < 2 ^ 64 := Nat.mod_lt _ (by norm_num)
    have hsum : ((acc + r.SelfGas) % 2 ^ 64 + (rest.map Tally.SelfGas).sum) % 2 ^ 64 =
        (acc + (r.SelfGas + (rest.map Tally.SelfGas).sum)) % 2 ^ 64 := by omega
    rw [printLoop]
    by_cases hlt' : r.Depth < displayDepth
    · have hi : indent r.Depth = some (String.join (List.replicate r.Depth.toNat "  ")) := by
        simp [indent, not_lt.2 hr]
      simp only [hlt', if_true, hi]
      rw [ih _ _ hrest hlt, hsum]
      simp [hlt', lineOf]
    · simp only [hlt', if_false]
      rw [ih _ _ hrest hlt, hsum]
      simp [hlt']

end crongas

/-! ## Evaluation of `TallyCalls` on nodes built by `mkNode` -/

theorem sumCharges_map (tgs : List F64) :
    ∀ acc, sumCharges (tgs.map (fun g => Value.obj [("tg", Value.num g)])) acc =
      some (tgs.foldl F64.add acc) := by
  induction tgs with
  | nil => intro acc; rfl
  | cons g rest ih =>
    intro acc
    simp only [List.map_cons, List.foldl_cons, sumCharges, asMap, index, if_true, asFloat64]
    exact ih _

theorem ownTally_mkNode (impl : F64 → Nat) (s r : String) (m : F64) (tgs : List F64)
    (extra : List (String × Value)) (d : Int) :
    ownTally impl (mkNode s r m tgs extra) d =
      some ⟨s, r, d, toUint64 impl m, toUint64 impl (floatSum tgs),
        toUint64 impl (floatSum tgs)⟩ := by
  have h1 : index (mkNode s r m tgs extra) "Msg" =
      .obj [("From", .str s), ("To", .str r), ("Method", .num m)] := by
    simp [mkNode, index]
  have h2 : index (mkNode s r m tgs extra) "GasCharges" =
      .arr (tgs.map (fun g => Value.obj [("tg", Value.num g)])) := by
    simp [mkNode, index]
  unfold ownTally
  rw [h1, h2]
  simp only [asMap, asSlice, sumCharges_map, index, asString, asFloat64, floatSum]
  simp

theorem TallyCalls_mkNode_leaf (impl : F64 → Nat) (s r : String) (m : F64) (tgs : List F64)
    (d : Int) :
    TallyCalls impl (mkNode s r m tgs []) d =
      some [⟨s, r, d, toUint64 impl m, toUint64 impl (floatSum tgs),
        toUint64 impl (floatSum tgs)⟩] := by
  have h3 : index (mkNode s r m tgs []) "Subcalls" = .null := by
    simp [mkNode, index]
  have hlt := toUint64_lt impl (floatSum tgs)
  rw [TallyCalls_eq_own, ownTally_mkNode, h3]
  simp only [isNil, if_true, addTotal, Nat.add_zero, Nat.mod_eq_of_lt hlt]

theorem TallyCalls_mkNode_null (impl : F64 → Nat) (s r : String) (m : F64) (tgs : List F64)
    (d : Int) :
    TallyCalls impl (mkNode s r m tgs [("Subcalls", .null)]) d =
      some [⟨s, r, d, toUint64 impl m, toUint64 impl (floatSum tgs),
        toUint64 impl (floatSum tgs)⟩] := by
  have h3 : index (mkNode s r m tgs [("Subcalls", .null)]) "Subcalls" = .null := by
    simp [mkNode, index]
  have hlt := toUint64_lt impl (floatSum tgs)
  rw [TallyCalls_eq_own, ownTally_mkNode, h3]
  simp only [isNil, if_true, addTotal, Nat.add_zero, Nat.mod_eq_of_lt hlt]

theorem TallyCalls_mkNode_subcalls (impl : F64 → Nat) (s r : String) (m : F64)
    (tgs : List F64) (calls : List Value) (d : Int) :
    TallyCalls impl (mkNode s r m tgs [("Subcalls", .arr calls)]) d =
      match tallySubcalls impl calls d
        [⟨s, r, d, toUint64 impl m, toUint64 impl (floatSum tgs),
          toUint64 impl (floatSum tgs)⟩] 0 with
      | none => none
      | some (result, totalGas) => addTotal result totalGas := by
  have h3 : index (mkNode s r m tgs [("Subcalls", .arr calls)]) "Subcalls" = .arr calls := by
    simp [mkNode, index]
  rw [TallyCalls_eq_own, ownTally_mkNode, h3]
  simp [isNil, asSlice]

theorem wellFormed_of_TallyCalls (impl : F64 → Nat) (n : List (String × Value)) (d : Int)
    (ts : List Tally) (h : TallyCalls impl n d = some ts) : wellFormed n = true :=
  (TallyCalls_isSome_iff impl n d).1 (by rw [h]; rfl)

theorem scenario1_tallies (impl : F64 → Nat) (d : Int) :
    TallyCalls impl scenario1 d = some [⟨"f01", "f02", d, 2, 150, 150⟩] := by
  have h1 : toUint64 impl (floatSum [.fin 100 0, .fin 50 0]) = 150 := rfl
  have h2 : toUint64 impl (.fin 2 0) = 2 := rfl
  rw [scenario1, TallyCalls_mkNode_leaf, h1, h2]

theorem scenario2_tallies (impl : F64 → Nat) (d : Int) :
    TallyCalls impl scenario2 d =
      some [⟨"f01", "f02", d, 2, 10, 30⟩, ⟨"f02", "f03", d + 1, 3, 20, 20⟩] := by
  have h1 : toUint64 impl (floatSum [.fin 10 0]) = 10 := rfl
  have h2 : toUint64 impl (floatSum [.fin 20 0]) = 20 := rfl
  have h3 : toUint64 impl (.fin 2 0) = 2 := rfl
  have h4 : toUint64 impl (.fin 3 0) = 3 := rfl
  rw [scenario2, TallyCalls_mkNode_subcalls]
  simp only [tallySubcalls, TallyCalls_mkNode_leaf, h1, h2, h3, h4]
  simp [addTotal]

theorem scenario5_tallies (impl : F64 → Nat) (d : Int) :
    TallyCalls impl scenario5 d =
      some [⟨"r", "a", d, 0, 1, 15⟩, ⟨"a", "b", d + 1, 1, 2, 5⟩,
        ⟨"b", "c", d + 1 + 1, 2, 3, 3⟩, ⟨"a", "d", d + 1, 3, 4, 9⟩,
        ⟨"d", "e", d + 1 + 1, 4, 5, 5⟩] := by
  have h1 : toUint64 impl (floatSum [.fin 1 0]) = 1 := rfl
  have h2 : toUint64 impl (floatSum [.fin 2 0]) = 2 := rfl
  have h3 : toUint64 impl (floatSum [.fin 3 0]) = 3 := rfl
  have h4 : toUint64 impl (floatSum [.fin 4 0]) = 4 := rfl
  have h5 : toUint64 impl (floatSum [.fin 5 0]) = 5 := rfl
  have m0 : toUint64 impl (.fin 0 0) = 0 := rfl
  have m1 : toUint64 impl (.fin 1 0) = 1 := rfl
  have m2 : toUint64 impl (.fin 2 0) = 2 := rfl
  have m3 : toUint64 impl (.fin 3 0) = 3 := rfl
  have m4 : toUint64 impl (.fin 4 0) = 4 := rfl
  rw [scenario5, TallyCalls_mkNode_subcalls]
  simp only [tallySubcalls, TallyCalls_mkNode_subcalls, TallyCalls_mkNode_leaf,
    TallyCalls_mkNode_null, h1, h2, h3, h4, h5, m0, m1, m2, m3, m4, addTotal]
  simp

theorem overflowTree_tallies (impl : F64 → Nat) (d : Int) :
    TallyCalls impl overflowTree d =
      some [⟨"r", "a", d, 0, 0, 0⟩, ⟨"a", "b", d + 1, 0, 2 ^ 63, 2 ^ 63⟩,
        ⟨"a", "c", d + 1, 0, 2 ^ 63, 2 ^ 63⟩] := by
  have h1 : toUint64 impl (floatSum [.fin 1 63]) = 2 ^ 63 := rfl
  have h0 : toUint64 impl (.fin 0 0) = 0 := rfl
  have h2 : toUint64 impl (floatSum []) = 0 := rfl
  rw [overflowTree, TallyCalls_mkNode_subcalls]
  simp only [tallySubcalls, TallyCalls_mkNode_leaf, h0, h1, h2]
  simp [addTotal]

theorem negHalfNode_tallies (impl : F64 → Nat) (d : Int) :
    TallyCalls impl negHalfNode d = some [⟨"a", "b", d, 0, 0, 0⟩] := by
  have h1 : toUint64 impl (floatSum [.fin (-1) (-1)]) = 0 := rfl
  have h0 : toUint64 impl (.fin 0 0) = 0 := rfl
  rw [negHalfNode, TallyCalls_mkNode_leaf, h0, h1]

/-! ## The command `main` of `crongas.go` -/

namespace crongas

/-- A successful run of `main`: the lines of the tallies above the display depth, in the
order of the tallies, then the total line with the sum of all self gas. -/
theorem main_eq (impl : F64 → Nat) (displayDepth : Int)
    (full value active trace : List (String × Value)) (ts : List Tally)
    (hv : asMap (index full "value") = some value)
    (ha : asMap (index value "active") = some active)
    (ht : asMap (index active "ExecutionTrace") = some trace)
    (h : TallyCalls impl trace 0 = some ts) :
    main impl displayDepth full =
      ⟨(ts.filter (fun r => decide (r.Depth < displayDepth))).map lineOf ++
        [totalLine ((ts.map Tally.SelfGas).sum % 2 ^ 64)], false⟩ := by
  unfold main
  simp only [hv, ha, ht, h]
  rw [printLoop_eq displayDepth ts 0 [] (TallyCalls_depth_ge impl trace 0 ts h)
    (by norm_num)]
  simp

/-- A run of `main` in which `TallyCalls` panics: nothing has been printed. -/
theorem main_abort (impl : F64 → Nat) (displayDepth : Int)
    (full value active trace : List (String × Value))
    (hv : asMap (index full "value") = some value)
    (ha : asMap (index value "active") = some active)
    (ht : asMap (index active "ExecutionTrace") = some trace)
    (h : TallyCalls impl trace 0 = none) :
    main impl displayDepth full = ⟨[], true⟩ := by
  unfold main
  simp only [hv, ha, ht, h]

end crongas

/-! ## Self gas -/

theorem trunc_eq_floor (m e : Int) (h : 0 ≤ F64.toRat (.fin m e)) :
    F64.trunc m e = ⌊F64.toRat (.fin m e)⌋ := by
  simp only [F64.toRat] at h ⊢
  have hpos : (0 : ℚ) < (2 : ℚ) ^ e := zpow_pos (by norm_num) e
  have hm : 0 ≤ m := by
    have := nonneg_of_mul_nonneg_left h hpos
    exact_mod_cast this
  unfold F64.trunc
  split
  · rename_i he
    obtain ⟨k, rfl⟩ := Int.eq_ofNat_of_zero_le he
    simp only [Int.toNat_ofNat, zpow_natCast]
    have : ((m : ℚ) * 2 ^ k) = ((m * 2 ^ k : ℤ) : ℚ) := by push_cast; ring
    rw [this, Int.floor_intCast]
  · rename_i he
    have hk : e = -((-e).toNat : ℤ) := by
      rw [Int.toNat_of_nonneg (by omega)]
      ring
    generalize (-e).toNat = k at hk ⊢
    subst hk
    rw [Int.tdiv_eq_ediv hm (by positivity)]
    have : (m : ℚ) * 2 ^ (-(k : ℤ)) = (m : ℚ) / ((2 ^ k : ℕ) : ℚ) := by
      rw [zpow_neg, zpow_natCast]
      push_cast
      ring
    rw [this, Rat.floor_intCast_div_natCast]
    push_cast
    rfl

theorem toUint64_eq_floor (impl : F64 → Nat) (m e : Int)
    (h0 : 0 ≤ F64.toRat (.fin m e)) (h1 : F64.toRat (.fin m e) < 2 ^ 64) :
    (toUint64 impl (.fin m e) : Int) = ⌊F64.toRat (.fin m e)⌋ := by
  have ht := trunc_eq_floor m e h0
  have hf0 : 0 ≤ ⌊F64.toRat (.fin m e)⌋ := Int.floor_nonneg.2 h0
  have hf1 : ⌊F64.toRat (.fin m e)⌋ < 2 ^ 64 := by
    rw [Int.floor_lt]
    exact_mod_cast h1
  simp only [toUint64]
  rw [if_pos ⟨by rw [ht]; exact hf0, by rw [ht]; exact hf1⟩, ← ht]
  exact Int.toNat_of_nonneg (by rw [ht]; exact hf0)

theorem sumCharges_eq_floatSum (charges : List Value) :
    ∀ acc s, sumCharges charges acc = some s → s = (tgValues charges).foldl F64.add acc := by
  induction charges with
  | nil =>
    intro acc s h
    simp only [sumCharges, Option.some.injEq] at h
    simp [tgValues, h]
  | cons c rest ih =>
    intro acc s h
    rw [sumCharges] at h
    cases hc : asMap c with
    | none => simp [hc] at h
    | some m =>
      cases hg : asFloat64 (index m "tg") with
      | none => simp [hc, hg] at h
      | some g =>
        simp only [hc, hg] at h
        have := ih _ s h
        simp only [tgValues] at this ⊢
        simp [List.filterMap_cons, hc, hg, this]

theorem ownTally_selfGas (impl : F64 → Nat) (trace : List (String × Value)) (depth : Int)
    (own : Tally) (h : ownTally impl trace depth = some own) :
    ∃ charges, asSlice (index trace "GasCharges") = some charges ∧
      own.SelfGas = toUint64 impl (floatSum (tgValues charges)) := by
  unfold ownTally at h
  cases h1 : asMap (index trace "Msg") with
  | none => simp [h1] at h
  | some msg =>
    cases h2 : asSlice (index trace "GasCharges") with
    | none => simp [h1, h2] at h
    | some charges =>
      cases h3 : sumCharges charges (.fin 0 0) with
      | none => simp [h1, h2, h3] at h
      | some selfGas =>
        have hs := sumCharges_eq_floatSum charges _ _ h3
        simp only [h1, h2, h3] at h
        repeat' split at h
        all_goals first
          | (simp only [Option.some.injEq] at h
             subst h
             exact ⟨charges, rfl, by rw [hs]; rfl⟩)
          | simp at h

theorem ownTally_msg (impl : F64 → Nat) (trace : List (String × Value)) (depth : Int)
    (own : Tally) (h : ownTally impl trace depth = some own) :
    ∃ msg sender receiver method, asMap (index trace "Msg") = some msg ∧
      asString (index msg "From") = some sender ∧
      asString (index msg "To") = some receiver ∧
      asFloat64 (index msg "Method") = some method ∧
      own.From = sender ∧ own.To = receiver ∧ own.Method = toUint64 impl method := by
  unfold ownTally at h
  cases h1 : asMap (index trace "Msg") with
  | none => simp [h1] at h
  | some msg =>
    simp only [h1] at h
    repeat' split at h
    all_goals first
      | (simp only [Option.some.injEq] at h
         subst h
         rename_i h4 _ _ h5 _ _ h6
         exact ⟨msg, _, _, _, rfl, h4, h5, h6, rfl, rfl, rfl⟩)
      | simp at h

/-- The first tally of a result is the own tally of the node with its total updated. -/
theorem TallyCalls_head (impl : F64 → Nat) (n : List (String × Value)) (d : Int)
    (t : Tally) (rest : List Tally) (h : TallyCalls impl n d = some (t :: rest)) :
    ∃ own, ownTally impl n d = some own ∧ t.From = own.From ∧ t.To = own.To ∧
      t.Depth = own.Depth ∧ t.Method = own.Method ∧ t.SelfGas = own.SelfGas := by
  obtain ⟨own, subs, ho, -, -, hcons⟩ := (TallyCalls_eq_some impl n d _).1 h
  simp only [List.cons.injEq] at hcons
  obtain ⟨rfl, -⟩ := hcons
  exact ⟨own, ho, rfl, rfl, rfl, rfl, rfl⟩

theorem TallyCalls_of_wellFormed (impl : F64 → Nat) (n : List (String × Value)) (d : Int)
    (hw : wellFormed n = true) : ∃ t rest, TallyCalls impl n d = some (t :: rest) := by
  obtain ⟨ts, h⟩ := Option.isSome_iff_exists.1 ((TallyCalls_isSome_iff impl n d).2 hw)
  cases ts with
  | nil => exact absurd rfl (TallyCalls_ne_nil impl n d _ h)
  | cons t rest => exact ⟨t, rest, h⟩

theorem halvesNode_tallies (impl : F64 → Nat) (d : Int) :
    TallyCalls impl halvesNode d = some [⟨"a", "b", d, 0, 1, 1⟩] := by
  have h1 : toUint64 impl (floatSum [.fin 1 (-1), .fin 1 (-1)]) = 1 := rfl
  have h0 : toUint64 impl (.fin 0 0) = 0 := rfl
  rw [halvesNode, TallyCalls_mkNode_leaf, h0, h1]

/-! ## The two copies of `TallyCalls` -/

theorem lotusgas_sumCharges_eq (charges : List Value) :
    ∀ acc, lotusgas.sumCharges charges acc = sumCharges charges acc := by
  induction charges with
  | nil => intro acc; rfl
  | cons c rest ih =>
    intro acc
    simp only [lotusgas.sumCharges, sumCharges]
    split
    · split
      · exact ih _
      · rfl
    · rfl

theorem lotusgas_addTotal_eq (ts : List Tally) (total : Nat) :
    lotusgas.addTotal ts total = addTotal ts total := by
  cases ts <;> rfl

theorem lotusgas_tallySubcalls_eq (impl : F64 → Nat) (calls : List Value)
    (ih : ∀ t, Value.obj t ∈ calls → ∀ d, lotusgas.TallyCalls impl t d = TallyCalls impl t d) :
    ∀ depth result total,
      lotusgas.tallySubcalls impl calls depth result total =
        tallySubcalls impl calls depth result total := by
  induction calls with
  | nil =>
    intro depth result total
    rw [lotusgas.tallySubcalls, tallySubcalls]
  | cons c rest ihc =>
    intro depth result total
    cases c with
    | obj t =>
      rw [lotusgas.tallySubcalls, tallySubcalls, ih t (by simp)]
      split
      · rfl
      · split
        · rfl
        · exact ihc (fun t ht => ih t (List.mem_cons_of_mem _ ht)) _ _ _
    | _ => simp [lotusgas.tallySubcalls, tallySubcalls]

/-- The copy of `TallyCalls` in `lotusgas.go` computes what the copy in `crongas.go`
computes. -/
theorem lotusgas_TallyCalls_eq (impl : F64 → Nat) (trace : List (String × Value)) :
    ∀ depth, lotusgas.TallyCalls impl trace depth = TallyCalls impl trace depth := by
  induction trace using trace_induction with
  | step trace ih =>
    intro depth
    rw [lotusgas.TallyCalls, TallyCalls]
    split
    · rfl
    split
    · rfl
    rw [lotusgas_sumCharges_eq]
    split
    · rfl
    split
    · rfl
    split
    · rfl
    split
    · rfl
    simp only []
    split
    · exact lotusgas_addTotal_eq _ _
    · split
      · rfl
      · rename_i calls hcalls
        rw [lotusgas_tallySubcalls_eq impl calls (fun t ht => by
          rw [← children_of_asSlice trace calls hcalls] at ht
          exact ih t ht)]
        split
        · rfl
        · exact lotusgas_addTotal_eq _ _

/-! ## The command `main` of `lotusgas.go` -/

/-- The inner loop of `main` of `lotusgas.go` on tallies of non-negative depth: it never
panics and it prints the lines of the tallies above the display depth. -/
theorem lotusgas_printLoop_eq (displayDepth : Int) :
    ∀ (ts : List Tally) (acc : Nat) (out : List String),
      (∀ r ∈ ts, 0 ≤ r.Depth) → acc < 2 ^ 64 →
      lotusgas.printLoop displayDepth ts acc out =
        ((acc + (ts.map Tally.SelfGas).sum) % 2 ^ 64,
          out ++ (ts.filter (fun r => decide (r.Depth < displayDepth))).map lotusgas.lineOf,
          false) := by
  intro ts
  induction ts with
  | nil =>
    intro acc out _ hacc
    simp only [lotusgas.printLoop, List.map_nil, List.sum_nil, Nat.add_zero, List.filter_nil,
      List.append_nil, Nat.mod_eq_of_lt hacc]
  | cons r rest ih =>
    intro acc out hd hacc
    have hr : 0 ≤ r.Depth := hd r (by simp)
    have hrest : ∀ r' ∈ rest, 0 ≤ r'.Depth := fun r' h => hd r' (List.mem_cons_of_mem _ h)
    have hlt : (acc + r.SelfGas) % 2 ^ 64 < 2 ^ 64 := Nat.mod_lt _ (by norm_num)
    have hsum : ((acc + r.SelfGas) % 2 ^ 64 + (rest.map Tally.SelfGas).sum) % 2 ^ 64 =
        (acc + (r.SelfGas + (rest.map Tally.SelfGas).sum)) % 2 ^ 64 := by omega
    rw [lotusgas.printLoop]
    by_cases hlt' : r.Depth < displayDepth
    · have hi : indent r.Depth = some (String.join (List.replicate r.Depth.toNat "  ")) := by
        simp [indent, not_lt.2 hr]
      simp only [hlt', if_true, hi]
      rw [ih _ _ hrest hlt, hsum]
      simp [hlt', lotusgas.lineOf]
    · simp only [hlt', if_false]
      rw [ih _ _ hrest hlt, hsum]
      simp [hlt']

/-- A top-level message of the right shape: `main` prints its block and goes on. -/
theorem lotusgas_mainLoop_cons_some (impl : F64 → Nat) (other : Value → String)
    (displayDepth : Int) (m : Value) (rest : List Value) (out b : List String)
    (hb : lotusgas.block impl other displayDepth m = some b) :
    lotusgas.mainLoop impl other displayDepth (m :: rest) out =
      lotusgas.mainLoop impl other displayDepth rest (out ++ b) := by
  unfold lotusgas.block at hb
  rw [lotusgas.mainLoop]
  cases h1 : asMap m with
  | none => simp [h1] at hb
  | some tm =>
    cases h2 : asMap (index tm "MsgCid") with
    | none => simp [h1, h2] at hb
    | some cid =>
      cases h3 : asMap (index tm "ExecutionTrace") with
      | none => simp [h1, h2, h3] at hb
      | some trace =>
        cases h4 : lotusgas.TallyCalls impl trace 0 with
        | none => simp [h1, h2, h3, h4] at hb
        | some tallies =>
          simp only [h1, h2, h3, h4, Option.some.injEq] at hb
          subst hb
          have h4' := h4
          rw [lotusgas_TallyCalls_eq] at h4'
          simp only [h2, h3, h4]
          rw [lotusgas_printLoop_eq displayDepth tallies 0 _
            (TallyCalls_depth_ge impl trace 0 tallies h4') (by norm_num)]
          simp

/-- A top-level message that is not of the right shape, or whose trace cannot be tallied:
`main` panics before it prints anything for this message. -/
theorem lotusgas_mainLoop_cons_none (impl : F64 → Nat) (other : Value → String)
    (displayDepth : Int) (m : Value) (rest : List Value) (out : List String)
    (hb : lotusgas.block impl other displayDepth m = none) :
    lotusgas.mainLoop impl other displayDepth (m :: rest) out = ⟨out, true⟩ := by
  unfold lotusgas.block at hb
  rw [lotusgas.mainLoop]
  cases h1 : asMap m with
  | none => rfl
  | some tm =>
    cases h2 : asMap (index tm "MsgCid") with
    | none => simp only [h2]
    | some cid =>
      cases h3 : asMap (index tm "ExecutionTrace") with
      | none => simp only [h2, h3]
      | some trace =>
        cases h4 : lotusgas.TallyCalls impl trace 0 with
        | none => simp only [h2, h3, h4]
        | some tallies => simp [h1, h2, h3, h4] at hb

theorem lotusgas_mainLoop_prefix_ok (impl : F64 → Nat) (other : Value → String)
    (displayDepth : Int) (good : List Value) :
    ∀ (more : List Value) (out : List String),
      (∀ m ∈ good, (lotusgas.block impl other displayDepth m).isSome = true) →
      lotusgas.mainLoop impl other displayDepth (good ++ more) out =
        lotusgas.mainLoop impl other displayDepth more
          (out ++ (good.filterMap (lotusgas.block impl other displayDepth)).flatten) := by
  induction good with
  | nil => intro more out _; simp
  | cons m rest ih =>
    intro more out h
    obtain ⟨b, hb⟩ := Option.isSome_iff_exists.1 (h m (by simp))
    rw [List.cons_append, lotusgas_mainLoop_cons_some impl other displayDepth m _ out b hb,
      ih more _ (fun m' hm' => h m' (List.mem_cons_of_mem _ hm'))]
    simp [List.filterMap_cons, hb]

/-! ## Depth as an offset -/

theorem ownTally_shift (impl : F64 → Nat) (trace : List (String × Value)) (d k : Int) :
    ownTally impl trace (d + k) = (ownTally impl trace d).map (shiftDepth k) := by
  unfold ownTally
  repeat' split
  all_goals rfl

theorem headTotal_map_shift (k : Int) (s : List Tally) :
    headTotal (s.map (shiftDepth k)) = headTotal s := by
  cases s <;> rfl

theorem accTotal_map_shift (k : Int) (subs : List (List Tally)) :
    ∀ total, accTotal total (subs.map (List.map (shiftDepth k))) = accTotal total subs := by
  induction subs with
  | nil => intro total; rfl
  | cons s rest ih =>
    intro total
    show accTotal ((total + headTotal (s.map (shiftDepth k))) % 2 ^ 64)
        (rest.map (List.map (shiftDepth k))) =
      accTotal ((total + headTotal s) % 2 ^ 64) rest
    rw [headTotal_map_shift]
    exact ih _

theorem forall₂_imp_mem {α β : Type} {R S : α → β → Prop} {l₁ : List α} {l₂ : List β}
    (hf : List.Forall₂ R l₁ l₂) (h : ∀ a b, a ∈ l₁ → R a b → S a b) :
    List.Forall₂ S l₁ l₂ := by
  induction hf with
  | nil => exact List.Forall₂.nil
  | cons hab _ ih =>
    exact List.Forall₂.cons (h _ _ (by simp) hab)
      (ih (fun a b ha hr => h a b (List.mem_cons_of_mem _ ha) hr))

theorem flatten_map_map {α β : Type} (f : α → β) (subs : List (List α)) :
    (subs.map (List.map f)).flatten = subs.flatten.map f := by
  induction subs with
  | nil => rfl
  | cons s rest ih =>
    simp only [List.map_cons, List.flatten_cons, List.map_append]
    rw [ih]

/-- Calling `TallyCalls` with a depth larger by `k` shifts every `Depth` by `k` and changes
nothing else. -/
theorem TallyCalls_shift (impl : F64 → Nat) (trace : List (String × Value)) :
    ∀ d k, TallyCalls impl trace (d + k) =
      (TallyCalls impl trace d).map (List.map (shiftDepth k)) := by
  induction trace using trace_induction with
  | step trace ih =>
    intro d k
    cases h : TallyCalls impl trace d with
    | none =>
      cases h' : TallyCalls impl trace (d + k) with
      | none => rfl
      | some ts =>
        have hw := wellFormed_of_TallyCalls impl trace _ ts h'
        have := (TallyCalls_isSome_iff impl trace d).2 hw
        rw [h] at this
        exact absurd this (by simp)
    | some ts =>
      obtain ⟨own, subs, ho, hok, hf, rfl⟩ := (TallyCalls_eq_some impl trace d ts).1 h
      rw [Option.map_some']
      refine (TallyCalls_eq_some impl trace (d + k) _).2
        ⟨shiftDepth k own, subs.map (List.map (shiftDepth k)), ?_, hok, ?_, ?_⟩
      · rw [ownTally_shift, ho]
        rfl
      · rw [List.forall₂_map_right_iff]
        refine forall₂_imp_mem hf ?_
        rintro c s hmem ⟨t, rfl, hs, hne⟩
        refine ⟨t, rfl, ?_, by simpa using hne⟩
        have := ih t hmem (d + 1) k
        rw [hs] at this
        rw [show d + k + 1 = d + 1 + k by ring, this]
        rfl
      · rw [accTotal_map_shift, flatten_map_map]
        rfl

/-! ## Ancestors, and totals without wrap-around -/

/-- The totals found at the pre-order positions of the subcalls of the node at path `p`
are the totals of the first tallies of the results of these subcalls. -/
theorem subcall_totals_eq (impl : F64 → Nat) (n : List (String × Value)) (d : Int)
    (ts : List Tally) (h : TallyCalls impl n d = some ts)
    (p : List Nat) (m : List (String × Value)) (hm : nodeAt n p = some m)
    (subs : List (List Tally))
    (hf : List.Forall₂ (SubResult impl (d + p.length)) (children m) subs) :
    (List.range (children m).length).map
      (fun j => totalGasAt ts (preorderIndex n (p ++ [j]))) = subs.map headTotal := by
  have hlen : (children m).length = subs.length := hf.length_eq
  apply List.ext_getElem?
  intro j
  by_cases hj : j < (children m).length
  · have hj' : j < subs.length := hlen ▸ hj
    obtain ⟨s, hs, tj, hc, hsj, -⟩ := forall₂_getElem? hf j (children m)[j] (by simp [hj])
    have hnode : nodeAt n (p ++ [j]) = some tj := by
      rw [nodeAt_append, hm]
      simp [nodeAt, hj, hc]
    obtain ⟨tc, rc, htc, hidx⟩ := tally_at impl (p ++ [j]) n d ts tj h hnode
    have hd : d + ((p ++ [j]).length : Int) = d + (p.length : Int) + 1 := by
      simp only [List.length_append, List.length_singleton]
      push_cast
      ring
    rw [hd, hsj] at htc
    simp only [Option.some.injEq] at htc
    subst htc
    simp [hj, hj', List.getElem?_range, totalGasAt, hidx, hs, headTotal,
      (List.getElem?_eq_some_iff.1 hs).2]
  · have hj' : ¬ j < subs.length := hlen ▸ hj
    simp [hj, hj', List.getElem?_eq_none (Nat.le_of_not_lt hj),
      List.getElem?_eq_none (Nat.le_of_not_lt hj')]
    omega

theorem sum_le_sum_flatten (subs : List (List Tally)) (s : List Tally) (hs : s ∈ subs) :
    (s.map Tally.SelfGas).sum ≤ (subs.flatten.map Tally.SelfGas).sum := by
  induction subs with
  | nil => simp at hs
  | cons x rest ih =>
    simp only [List.flatten_cons, List.map_append, List.sum_append]
    rcases List.mem_cons.1 hs with rfl | hmem
    · omega
    · have := ih hmem
      omega

theorem le_sum_of_mem (xs : List Nat) (x : Nat) (hx : x ∈ xs) : x ≤ xs.sum := by
  induction xs with
  | nil => simp at hx
  | cons y rest ih =>
    simp only [List.sum_cons]
    rcases List.mem_cons.1 hx with rfl | hmem
    · omega
    · have := ih hmem
      omega

/-- When the self gas of all tallies adds up to less than `2 ^ 64`, the total of the first
tally is that sum and no tally has a total below its self gas. -/
theorem TallyCalls_exact (impl : F64 → Nat) (trace : List (String × Value)) :
    ∀ d ts, TallyCalls impl trace d = some ts → (ts.map Tally.SelfGas).sum < 2 ^ 64 →
      headTotal ts = (ts.map Tally.SelfGas).sum ∧ ∀ t ∈ ts, t.SelfGas ≤ t.TotalGas := by
  induction trace using trace_induction with
  | step trace ih =>
    intro d ts h hsum
    have hmod := selfGas_sum_mod impl trace d ts h
    rw [Nat.mod_eq_of_lt hsum] at hmod
    refine ⟨hmod.symm, ?_⟩
    obtain ⟨own, subs, ho, -, hf, rfl⟩ := (TallyCalls_eq_some impl trace d ts).1 h
    intro t ht
    rcases List.mem_cons.1 ht with rfl | hmem
    · simp only [headTotal, List.map_cons, List.sum_cons] at hmod
      simp only
      omega
    · obtain ⟨s, hs, hts⟩ := List.mem_flatten.1 hmem
      obtain ⟨c, hc, tc, rfl, hsc, -⟩ := forall₂_mem_right hf s hs
      have hle := sum_le_sum_flatten subs s hs
      simp only [List.map_cons, List.sum_cons] at hsum
      exact (ih tc hc (d + 1) s hsc (by omega)).2 t hts

/-! ## Evaluation of the commands on the example documents -/

/-- A node of the subtree that is not well formed makes `TallyCalls` panic. -/
theorem TallyCalls_none_of_bad_node (impl : F64 → Nat) (n : List (String × Value)) (d : Int)
    (p : List Nat) (m : List (String × Value)) (hm : nodeAt n p = some m)
    (hw : wellFormed m = false) : TallyCalls impl n d = none := by
  cases ht : TallyCalls impl n d with
  | none => rfl
  | some ts =>
    obtain ⟨ms, -, -, hms, -, -⟩ := subtree_block impl p n d ts m ht hm
    have := wellFormed_of_TallyCalls impl m _ ms hms
    rw [hw] at this
    exact absurd this (by simp)

theorem brokenChild_not_wellFormed : wellFormed brokenChild = false := by
  rw [wellFormed]
  simp [brokenChild, index, asMap, asString]

theorem brokenTree_node : nodeAt brokenTree [0] = some brokenChild := by
  simp [nodeAt, brokenTree, mkNode, children, index, asSlice]

theorem brokenTree_tallies (impl : F64 → Nat) (d : Int) :
    TallyCalls impl brokenTree d = none :=
  TallyCalls_none_of_bad_node impl brokenTree d [0] brokenChild brokenTree_node
    brokenChild_not_wellFormed

theorem method1000Node_tallies (impl : F64 → Nat) (d : Int) :
    TallyCalls impl method1000Node d = some [⟨"f01", "f02", d, 1000, 5, 5⟩] := by
  have h1 : toUint64 impl (floatSum [.fin 5 0]) = 5 := rfl
  have h2 : toUint64 impl (.fin 1000 0) = 1000 := rfl
  rw [method1000Node, TallyCalls_mkNode_leaf, h1, h2]

/-- The block of a top-level message built by `topMsg` around a trace that can be
tallied. -/
theorem block_topMsg (impl : F64 → Nat) (other : Value → String) (displayDepth : Int)
    (label : String) (trace : List (String × Value)) (ts : List Tally)
    (h : TallyCalls impl trace 0 = some ts) :
    lotusgas.block impl other displayDepth (topMsg label trace) =
      some ((label ++ "\n") ::
        (ts.filter (fun r => decide (r.Depth < displayDepth))).map lotusgas.lineOf) := by
  simp [lotusgas.block, topMsg, asMap, index, lotusgas_TallyCalls_eq, h, lotusgas.labelLine]

theorem block_topMsg_none (impl : F64 → Nat) (other : Value → String) (displayDepth : Int)
    (label : String) (trace : List (String × Value))
    (h : TallyCalls impl trace 0 = none) :
    lotusgas.block impl other displayDepth (topMsg label trace) = none := by
  simp [lotusgas.block, topMsg, asMap, index, lotusgas_TallyCalls_eq, h]

/-- The block of a top-level message, spelled out. -/
theorem block_eq_some_iff (impl : F64 → Nat) (other : Value → String) (displayDepth : Int)
    (m : Value) (b : List String) :
    lotusgas.block impl other displayDepth m = some b ↔
      ∃ tm cid trace tallies, asMap m = some tm ∧ asMap (index tm "MsgCid") = some cid ∧
        asMap (index tm "ExecutionTrace") = some trace ∧
        lotusgas.TallyCalls impl trace 0 = some tallies ∧
        b = lotusgas.labelLine other (index cid "/") ::
          (tallies.filter (fun r => decide (r.Depth < displayDepth))).map lotusgas.lineOf := by
  unfold lotusgas.block
  cases h1 : asMap m with
  | none => simp
  | some tm =>
    cases h2 : asMap (index tm "MsgCid") with
    | none => simp [h2]
    | some cid =>
      cases h3 : asMap (index tm "ExecutionTrace") with
      | none => simp [h2, h3]
      | some trace =>
        cases h4 : lotusgas.TallyCalls impl trace 0 with
        | none => simp [h2, h3, h4]
        | some tallies =>
          simp only [h2, h3, h4, Option.some.injEq]
          constructor
          · rintro rfl
            exact ⟨tm, cid, trace, tallies, rfl, h2, h3, h4, rfl⟩
          · rintro ⟨tm', cid', trace', tallies', htm, hcid, htr, hta, rfl⟩
            cases htm
            rw [h2] at hcid
            cases hcid
            rw [h3] at htr
            cases htr
            rw [h4] at hta
            cases hta
            rfl

/-! ## The depth as a 64 bit `int` -/

theorem wrapInt_of_range (x : Int) (h : -2 ^ 63 ≤ x ∧ x < 2 ^ 63) : wrapInt x = x := by
  obtain ⟨h1, h2⟩ := h
  simp only [wrapInt]
  omega

theorem wrapInt_range (x : Int) : -2 ^ 63 ≤ wrapInt x ∧ wrapInt x < 2 ^ 63 := by
  simp only [wrapInt]
  omega

theorem wrapInt_add (x k : Int) : wrapInt (wrapInt x + k) = wrapInt (x + k) := by
  simp only [wrapInt]
  omega

theorem addTotal_map_wrapDepth (ts : List Tally) (total : Nat) :
    addTotal (ts.map wrapDepth) total = (addTotal ts total).map (List.map wrapDepth) := by
  cases ts <;> rfl

theorem tallySubcallsWrap_eq (impl : F64 → Nat) (calls : List Value)
    (ih : ∀ t, Value.obj t ∈ calls → ∀ d,
      TallyCallsWrap impl t (wrapInt d) = (TallyCalls impl t d).map (List.map wrapDepth)) :
    ∀ depth result total,
      tallySubcallsWrap impl calls (wrapInt depth) (result.map wrapDepth) total =
        (tallySubcalls impl calls depth result total).map
          (fun r => (r.1.map wrapDepth, r.2)) := by
  induction calls with
  | nil =>
    intro depth result total
    rw [tallySubcallsWrap, tallySubcalls]
    rfl
  | cons c rest ihc =>
    intro depth result total
    cases c with
    | obj t =>
      rw [tallySubcallsWrap, tallySubcalls, wrapInt_add, ih t (by simp)]
      cases TallyCalls impl t (depth + 1) with
      | none => rfl
      | some sub =>
        cases sub with
        | nil => rfl
        | cons s ss =>
          have := ihc (fun t ht => ih t (List.mem_cons_of_mem _ ht)) depth
            (result ++ s :: ss) ((total + s.TotalGas) % 2 ^ 64)
          rw [List.map_append] at this
          exact this
    | _ => simp [tallySubcallsWrap, tallySubcalls]

/-- The tallies of `TallyCallsWrap` are those of `TallyCalls` with each `Depth` reduced to
the 64 bit range: counting the depth in unbounded integers changes no other field, nor the
order, nor whether the call panics. -/
theorem TallyCallsWrap_eq (impl : F64 → Nat) (trace : List (String × Value)) :
    ∀ d, TallyCallsWrap impl trace (wrapInt d) =
      (TallyCalls impl trace d).map (List.map wrapDepth) := by
  induction trace using trace_induction with
  | step trace ih =>
    intro d
    rw [TallyCallsWrap, TallyCalls]
    split
    · rfl
    split
    · rfl
    split
    · rfl
    split
    · rfl
    split
    · rfl
    split
    · rfl
    simp only []
    split
    · rfl
    · split
      · rfl
      · rename_i calls hcalls
        have key : ∀ (s r : String) (m g g' : Nat),
            tallySubcallsWrap impl calls (wrapInt d) [⟨s, r, wrapInt d, m, g, g'⟩] 0 =
              (tallySubcalls impl calls d [⟨s, r, d, m, g, g'⟩] 0).map
                (fun r => (r.1.map wrapDepth, r.2)) := fun s r m g g' =>
          tallySubcallsWrap_eq impl calls (fun t ht => by
            rw [← children_of_asSlice trace calls hcalls] at ht
            exact ih t ht) d [⟨s, r, d, m, g, g'⟩] 0
        rw [key]
        cases tallySubcalls impl calls d _ 0 with
        | none => rfl
        | some r => exact addTotal_map_wrapDepth _ _

/-- For a depth that is a 64 bit `int`. -/
theorem TallyCallsWrap_of_range (impl : F64 → Nat) (trace : List (String × Value)) (d : Int)
    (hd : -2 ^ 63 ≤ d ∧ d < 2 ^ 63) :
    TallyCallsWrap impl trace d = (TallyCalls impl trace d).map (List.map wrapDepth) := by
  have := TallyCallsWrap_eq impl trace d
  rwa [wrapInt_of_range d hd] at this

/-- When no `Depth` leaves the 64 bit range, counting the depth in unbounded integers
gives exactly the tallies of the function with wrap-around. -/
theorem TallyCallsWrap_eq_of_range (impl : F64 → Nat) (trace : List (String × Value))
    (d : Int) (ts : List Tally) (h : TallyCalls impl trace d = some ts)
    (hr : ∀ t ∈ ts, -2 ^ 63 ≤ t.Depth ∧ t.Depth < 2 ^ 63) :
    TallyCallsWrap impl trace d = some ts := by
  cases ts with
  | nil => exact absurd rfl (TallyCalls_ne_nil impl trace d _ h)
  | cons t rest =>
    have hd := hr t (by simp)
    rw [TallyCalls_head_depth impl trace d t rest h] at hd
    rw [TallyCallsWrap_of_range impl trace d hd, h, Option.map_some', Option.some.injEq]
    conv_rhs => rw [← List.map_id (t :: rest)]
    refine List.map_congr_left (fun u hu => ?_)
    show ({ u with Depth := wrapInt u.Depth } : Tally) = u
    rw [wrapInt_of_range _ (hr u hu)]

/-! ## The claims -/

/-- C1 (as stated, refuted): on `overflowTree` the root tally has `TotalGas = 0` although
its `SelfGas` plus the `TotalGas` of its two subcalls is `2 ^ 64`; the additions of
`TallyCalls` are `uint64` additions and wrap around. -/
theorem totalGas_sum_overflow :
    ∃ r a b : Tally,
      (∀ impl : F64 → Nat, TallyCalls impl overflowTree 0 = some [r, a, b]) ∧
      wellFormed overflowTree = true ∧
      children overflowTree =
        [.obj (mkNode "a" "b" (.fin 0 0) [.fin 1 63] []),
         .obj (mkNode "a" "c" (.fin 0 0) [.fin 1 63] [])] ∧
      preorderIndex overflowTree [] = 0 ∧
      preorderIndex overflowTree [0] = 1 ∧
      preorderIndex overflowTree [1] = 2 ∧
      r.SelfGas = 0 ∧ a.TotalGas = 2 ^ 63 ∧ b.TotalGas = 2 ^ 63 ∧ r.TotalGas = 0 ∧
      r.TotalGas ≠ r.SelfGas + (a.TotalGas + b.TotalGas) := by
  refine ⟨⟨"r", "a", 0, 0, 0, 0⟩, ⟨"a", "b", 1, 0, 2 ^ 63, 2 ^ 63⟩,
    ⟨"a", "c", 1, 0, 2 ^ 63, 2 ^ 63⟩, ?_, ?_, ?_, ?_, ?_, ?_, rfl, rfl, rfl, rfl, by norm_num⟩
  · intro impl
    rw [overflowTree_tallies]
    rfl
  · exact wellFormed_of_TallyCalls (fun _ => 0) overflowTree 0 _ (overflowTree_tallies _ 0)
  · simp [overflowTree, mkNode, children, index, asSlice]
  · simp [preorderIndex]
  · simp [overflowTree, mkNode, preorderIndex, children, index, asSlice, descendantsAll]
  · simp [overflowTree, mkNode, preorderIndex, children, index, asSlice, descendantsAll,
      descendants]

/-- C1 (amended): for a well-formed node `n`, `TallyCalls n d` succeeds and, for every node
`m` of the subtree of `n` (reached by a path `p`), the tally of `m` (at the pre-order
position of `m`) has `TotalGas = (SelfGas + sum of the TotalGas of the tallies of the
subcalls of m) mod 2 ^ 64`; the equality holds without the reduction whenever that sum is
below `2 ^ 64`, and `TotalGas = SelfGas` when `m` has no subcalls. -/
theorem totalGas_eq_selfGas_add_subcalls (impl : F64 → Nat) (n : List (String × Value))
    (d : Int) (hw : wellFormed n = true) :
    ∃ ts, TallyCalls impl n d = some ts ∧
      ∀ p m, nodeAt n p = some m →
        ∃ t, ts[preorderIndex n p]? = some t ∧
          (∀ j, j < (children m).length →
            (ts[preorderIndex n (p ++ [j])]?).isSome = true) ∧
          t.TotalGas = (t.SelfGas + ((List.range (children m).length).map
            (fun j => totalGasAt ts (preorderIndex n (p ++ [j])))).sum) % 2 ^ 64 ∧
          (t.SelfGas + ((List.range (children m).length).map
            (fun j => totalGasAt ts (preorderIndex n (p ++ [j])))).sum < 2 ^ 64 →
            t.TotalGas = t.SelfGas + ((List.range (children m).length).map
              (fun j => totalGasAt ts (preorderIndex n (p ++ [j])))).sum) ∧
          (children m = [] → t.TotalGas = t.SelfGas) := by
  obtain ⟨ts, h⟩ := Option.isSome_iff_exists.1 ((TallyCalls_isSome_iff impl n d).2 hw)
  refine ⟨ts, h, ?_⟩
  intro p m hm
  obtain ⟨t, ht, hsome, htot⟩ := TallyCalls_totalGas impl n d ts h p m hm
  refine ⟨t, ht, hsome, htot, ?_, ?_⟩
  · intro hlt
    rw [htot, Nat.mod_eq_of_lt hlt]
  · intro hnil
    obtain ⟨t', rest, hms, ht'⟩ := tally_at impl p n d ts m h hm
    rw [ht] at ht'
    simp only [Option.some.injEq] at ht'
    subst ht'
    obtain ⟨own, subs, ho, -, -, hcons⟩ := (TallyCalls_eq_some impl m _ _).1 hms
    obtain ⟨-, -, hlt⟩ := ownTally_fields impl m _ own ho
    simp only [List.cons.injEq] at hcons
    obtain ⟨rfl, -⟩ := hcons
    rw [htot, hnil]
    simpa using Nat.mod_eq_of_lt hlt

/-- Witness of C1 (amended) on Scenario 2: root `tg 10` with one subcall `tg 20`. -/
theorem totalGas_eq_selfGas_add_subcalls_witness :
    wellFormed scenario2 = true ∧
    TallyCalls (fun _ => 0) scenario2 0 =
      some [⟨"f01", "f02", 0, 2, 10, 30⟩, ⟨"f02", "f03", 1, 3, 20, 20⟩] ∧
    ∃ ts, TallyCalls (fun _ => 0) scenario2 0 = some ts ∧
      ∀ p m, nodeAt scenario2 p = some m →
        ∃ t, ts[preorderIndex scenario2 p]? = some t ∧
          (∀ j, j < (children m).length →
            (ts[preorderIndex scenario2 (p ++ [j])]?).isSome = true) ∧
          t.TotalGas = (t.SelfGas + ((List.range (children m).length).map
            (fun j => totalGasAt ts (preorderIndex scenario2 (p ++ [j])))).sum) % 2 ^ 64 ∧
          (t.SelfGas + ((List.range (children m).length).map
            (fun j => totalGasAt ts (preorderIndex scenario2 (p ++ [j])))).sum < 2 ^ 64 →
            t.TotalGas = t.SelfGas + ((List.range (children m).length).map
              (fun j => totalGasAt ts (preorderIndex scenario2 (p ++ [j])))).sum) ∧
          (children m = [] → t.TotalGas = t.SelfGas) :=
  ⟨wellFormed_of_TallyCalls (fun _ => 0) scenario2 0 _ (scenario2_tallies _ 0),
   scenario2_tallies _ 0,
   totalGas_eq_selfGas_add_subcalls (fun _ => 0) scenario2 0
    (wellFormed_of_TallyCalls (fun _ => 0) scenario2 0 _ (scenario2_tallies _ 0))⟩

/-- C2: for a well-formed node `n`, the running sum of `SelfGas` that `main` of `crongas.go`
accumulates in `uint64` over the tallies of `TallyCalls n 0`, which is the number on its
final total line, equals the `TotalGas` of the first tally. -/
theorem grand_total_eq_root_totalGas (impl : F64 → Nat) (n : List (String × Value))
    (hw : wellFormed n = true) :
    ∃ t rest, TallyCalls impl n 0 = some (t :: rest) ∧
      (∀ displayDepth, (crongas.printLoop displayDepth (t :: rest) 0 []).1 = t.TotalGas) ∧
      ∀ displayDepth, (crongas.main impl displayDepth (crongasDoc n)).lines.getLast? =
        some (crongas.totalLine t.TotalGas) := by
  obtain ⟨t, rest, h⟩ := TallyCalls_of_wellFormed impl n 0 hw
  have hsum := selfGas_sum_mod impl n 0 _ h
  simp only [headTotal] at hsum
  refine ⟨t, rest, h, ?_, ?_⟩
  · intro displayDepth
    rw [crongas.printLoop_eq displayDepth _ 0 [] (TallyCalls_depth_ge impl n 0 _ h)
      (by norm_num)]
    simpa using hsum
  · intro displayDepth
    rw [crongas.main_eq impl displayDepth (crongasDoc n) _ _ n _ rfl rfl rfl h, hsum]
    simp

/-- Witness of C2 on Scenario 2. -/
theorem grand_total_eq_root_totalGas_witness :
    wellFormed scenario2 = true ∧
    ∃ t rest, TallyCalls (fun _ => 0) scenario2 0 = some (t :: rest) ∧
      (∀ displayDepth, (crongas.printLoop displayDepth (t :: rest) 0 []).1 = t.TotalGas) ∧
      ∀ displayDepth,
        (crongas.main (fun _ => 0) displayDepth (crongasDoc scenario2)).lines.getLast? =
          some (crongas.totalLine t.TotalGas) :=
  ⟨wellFormed_of_TallyCalls (fun _ => 0) scenario2 0 _ (scenario2_tallies _ 0),
   grand_total_eq_root_totalGas (fun _ => 0) scenario2
    (wellFormed_of_TallyCalls (fun _ => 0) scenario2 0 _ (scenario2_tallies _ 0))⟩

/-- C4 (as stated, refuted): the node with the single charge `-0.5` gets `SelfGas = 0`, the
charge truncated towards zero, while the floor of the sum of its charges is `-1`. -/
theorem selfGas_not_floor_of_negative_sum :
    ∃ t : Tally,
      (∀ impl : F64 → Nat, TallyCalls impl negHalfNode 0 = some [t]) ∧
      wellFormed negHalfNode = true ∧
      asSlice (index negHalfNode "GasCharges") =
        some [.obj [("tg", .num (.fin (-1) (-1)))]] ∧
      F64.toRat (.fin (-1) (-1)) = -1 / 2 ∧
      F64.toRat (floatSum [.fin (-1) (-1)]) = -1 / 2 ∧
      ⌊F64.toRat (floatSum [.fin (-1) (-1)])⌋ = -1 ∧
      t.SelfGas = 0 ∧
      (t.SelfGas : Int) ≠ ⌊F64.toRat (floatSum [.fin (-1) (-1)])⌋ := by
  have hsum : floatSum [.fin (-1) (-1)] = .fin (-(2 ^ 52)) (-53) := by decide
  have hrat : F64.toRat (.fin (-(2 ^ 52)) (-53)) = -1 / 2 := by
    simp only [F64.toRat]
    norm_num
  have hfloor : ⌊(-1 / 2 : ℚ)⌋ = -1 := by
    rw [Int.floor_eq_iff]
    norm_num
  refine ⟨⟨"a", "b", 0, 0, 0, 0⟩, fun impl => negHalfNode_tallies impl 0,
    wellFormed_of_TallyCalls (fun _ => 0) negHalfNode 0 _ (negHalfNode_tallies _ 0),
    ?_, ?_, ?_, ?_, rfl, ?_⟩
  · simp [negHalfNode, mkNode, index, asSlice]
  · simp only [F64.toRat]
    norm_num
  · rw [hsum, hrat]
  · rw [hsum, hrat, hfloor]
  · rw [hsum, hrat, hfloor]
    norm_num

/-- C4 (amended): for a well-formed node `n`, the `SelfGas` of its tally is the `float64`
sum of the `tg` values of its `GasCharges` (added left to right from `0`) converted to
`uint64` once at the end: the sum truncated towards zero when that fits in a `uint64`,
which is the floor of the sum whenever `0 <= sum < 2 ^ 64`. -/
theorem selfGas_eq_truncated_float_sum (impl : F64 → Nat) (n : List (String × Value))
    (d : Int) (hw : wellFormed n = true) :
    ∃ charges t rest, asSlice (index n "GasCharges") = some charges ∧
      TallyCalls impl n d = some (t :: rest) ∧
      t.SelfGas = toUint64 impl (floatSum (tgValues charges)) ∧
      (∀ m e, floatSum (tgValues charges) = .fin m e →
        0 ≤ F64.trunc m e → F64.trunc m e < 2 ^ 64 → (t.SelfGas : Int) = F64.trunc m e) ∧
      (∀ m e, floatSum (tgValues charges) = .fin m e →
        0 ≤ F64.toRat (.fin m e) → F64.toRat (.fin m e) < 2 ^ 64 →
        (t.SelfGas : Int) = ⌊F64.toRat (.fin m e)⌋) := by
  obtain ⟨t, rest, h⟩ := TallyCalls_of_wellFormed impl n d hw
  obtain ⟨own, ho, -, -, -, -, hself⟩ := TallyCalls_head impl n d t rest h
  obtain ⟨charges, hc, hs⟩ := ownTally_selfGas impl n d own ho
  refine ⟨charges, t, rest, hc, h, by rw [hself, hs], ?_, ?_⟩
  · intro m e hfin h0 h1
    rw [hself, hs, hfin]
    simp only [toUint64]
    rw [if_pos ⟨h0, h1⟩]
    exact Int.toNat_of_nonneg h0
  · intro m e hfin h0 h1
    rw [hself, hs, hfin]
    exact toUint64_eq_floor impl m e h0 h1

/-- Witness of C4 (amended) on the node with the charges `0.5` and `0.5`: its `SelfGas` is
`1`, while each charge converted on its own is `0`. -/
theorem selfGas_eq_truncated_float_sum_witness :
    wellFormed halvesNode = true ∧
    TallyCalls (fun _ => 0) halvesNode 0 = some [⟨"a", "b", 0, 0, 1, 1⟩] ∧
    toUint64 (fun _ => 0) (.fin 1 (-1)) + toUint64 (fun _ => 0) (.fin 1 (-1)) = 0 ∧
    TallyCalls (fun _ => 0) scenario1 0 = some [⟨"f01", "f02", 0, 2, 150, 150⟩] ∧
    ∃ charges t rest, asSlice (index halvesNode "GasCharges") = some charges ∧
      TallyCalls (fun _ => 0) halvesNode 0 = some (t :: rest) ∧
      t.SelfGas = toUint64 (fun _ => 0) (floatSum (tgValues charges)) ∧
      (∀ m e, floatSum (tgValues charges) = .fin m e →
        0 ≤ F64.trunc m e → F64.trunc m e < 2 ^ 64 → (t.SelfGas : Int) = F64.trunc m e) ∧
      (∀ m e, floatSum (tgValues charges) = .fin m e →
        0 ≤ F64.toRat (.fin m e) → F64.toRat (.fin m e) < 2 ^ 64 →
        (t.SelfGas : Int) = ⌊F64.toRat (.fin m e)⌋) :=
  ⟨wellFormed_of_TallyCalls (fun _ => 0) halvesNode 0 _ (halvesNode_tallies _ 0),
   halvesNode_tallies _ 0, rfl, scenario1_tallies _ 0,
   selfGas_eq_truncated_float_sum (fun _ => 0) halvesNode 0
    (wellFormed_of_TallyCalls (fun _ => 0) halvesNode 0 _ (halvesNode_tallies _ 0))⟩

/-- C5 (as stated, refuted): called on the tree of Scenario 2 with the depth `2 ^ 63 - 1`,
the largest 64 bit `int`, `TallyCalls` gives the subcall the `Depth` `-2 ^ 63`, which is not
the `Depth` of its parent plus one: `depth+1` is an `int` addition and wraps around. -/
theorem child_depth_wraps_at_max_int :
    ∃ r c : Tally,
      (∀ impl : F64 → Nat, TallyCallsWrap impl scenario2 (2 ^ 63 - 1) = some [r, c]) ∧
      wellFormed scenario2 = true ∧
      nodeAt scenario2 ([] ++ [0]) = some (mkNode "f02" "f03" (.fin 3 0) [.fin 20 0] []) ∧
      preorderIndex scenario2 [] = 0 ∧
      preorderIndex scenario2 ([] ++ [0]) = 1 ∧
      r.Depth = 9223372036854775807 ∧ c.Depth = -9223372036854775808 ∧
      c.Depth ≠ r.Depth + 1 := by
  refine ⟨⟨"f01", "f02", 9223372036854775807, 2, 10, 30⟩,
    ⟨"f02", "f03", -9223372036854775808, 3, 20, 20⟩, ?_, ?_, ?_, ?_, ?_, rfl, rfl,
    by norm_num⟩
  · intro impl
    rw [TallyCallsWrap_of_range impl scenario2 _ (by norm_num), scenario2_tallies]
    rfl
  · exact wellFormed_of_TallyCalls (fun _ => 0) scenario2 0 _ (scenario2_tallies _ 0)
  · simp [scenario2, mkNode, nodeAt, children, index, asSlice]
  · simp [preorderIndex]
  · simp [scenario2, mkNode, preorderIndex, children, index, asSlice, descendantsAll]

/-- C5 (amended): for a well-formed node `n` and a depth `d` that is a 64 bit `int`, the
first tally of `TallyCalls n d` has `Depth = d`, and the tally of every other node of the
subtree has the `Depth` of its parent's tally plus one as Go computes it, wrapping around
from `2 ^ 63 - 1` to `-2 ^ 63`; it is the parent's `Depth` plus one over the integers
whenever the parent's `Depth` is below `2 ^ 63 - 1`. -/
theorem depth_of_root_and_subcalls (impl : F64 → Nat) (n : List (String × Value)) (d : Int)
    (hw : wellFormed n = true) (hd : -2 ^ 63 ≤ d ∧ d < 2 ^ 63) :
    ∃ ts, TallyCallsWrap impl n d = some ts ∧
      (∃ t, ts[0]? = some t ∧ t.Depth = d) ∧
      ∀ p j m, nodeAt n (p ++ [j]) = some m →
        ∃ tp tc, ts[preorderIndex n p]? = some tp ∧
          ts[preorderIndex n (p ++ [j])]? = some tc ∧
          tc.Depth = wrapInt (tp.Depth + 1) ∧
          (tp.Depth < 2 ^ 63 - 1 → tc.Depth = tp.Depth + 1) := by
  obtain ⟨t, rest, h⟩ := TallyCalls_of_wellFormed impl n d hw
  have hD := TallyCalls_head_depth impl n d t rest h
  refine ⟨(t :: rest).map wrapDepth, ?_, ⟨wrapDepth t, by simp, ?_⟩, ?_⟩
  · rw [TallyCallsWrap_of_range impl n d hd, h]
    rfl
  · show wrapInt t.Depth = d
    rw [hD]
    exact wrapInt_of_range d hd
  intro p j m hm
  have hm' := hm
  rw [nodeAt_append] at hm'
  obtain ⟨mp, hmp, -⟩ := Option.bind_eq_some.1 hm'
  obtain ⟨tp, rp, hp, hip⟩ := tally_at impl p n d _ mp h hmp
  obtain ⟨tc, rc, hc, hic⟩ := tally_at impl (p ++ [j]) n d _ m h hm
  have e1 := TallyCalls_head_depth impl mp _ tp rp hp
  have e2 := TallyCalls_head_depth impl m _ tc rc hc
  have key : (wrapDepth tc).Depth = wrapInt ((wrapDepth tp).Depth + 1) := by
    show wrapInt tc.Depth = wrapInt (wrapInt tp.Depth + 1)
    rw [wrapInt_add, e1, e2]
    congr 1
    simp only [List.length_append, List.length_singleton]
    push_cast
    ring
  refine ⟨wrapDepth tp, wrapDepth tc, ?_, ?_, key, ?_⟩
  · rw [List.getElem?_map, hip]
    rfl
  · rw [List.getElem?_map, hic]
    rfl
  · intro hlt
    rw [key]
    have hr := wrapInt_range tp.Depth
    have hlt' : wrapInt tp.Depth < 2 ^ 63 - 1 := hlt
    refine wrapInt_of_range _ ⟨?_, ?_⟩
    · show -2 ^ 63 ≤ wrapInt tp.Depth + 1
      omega
    · show wrapInt tp.Depth + 1 < 2 ^ 63
      omega

/-- Witness of C5 on Scenario 5. -/
theorem depth_of_root_and_subcalls_witness :
    wellFormed scenario5 = true ∧ (-2 ^ 63 ≤ (0 : Int) ∧ (0 : Int) < 2 ^ 63) ∧
    (TallyCallsWrap (fun _ => 0) scenario5 0 =
      some [⟨"r", "a", 0, 0, 1, 15⟩, ⟨"a", "b", 1, 1, 2, 5⟩, ⟨"b", "c", 2, 2, 3, 3⟩,
        ⟨"a", "d", 1, 3, 4, 9⟩, ⟨"d", "e", 2, 4, 5, 5⟩]) ∧
    ∃ ts, TallyCallsWrap (fun _ => 0) scenario5 0 = some ts ∧
      (∃ t, ts[0]? = some t ∧ t.Depth = 0) ∧
      ∀ p j m, nodeAt scenario5 (p ++ [j]) = some m →
        ∃ tp tc, ts[preorderIndex scenario5 p]? = some tp ∧
          ts[preorderIndex scenario5 (p ++ [j])]? = some tc ∧
          tc.Depth = wrapInt (tp.Depth + 1) ∧
          (tp.Depth < 2 ^ 63 - 1 → tc.Depth = tp.Depth + 1) :=
  ⟨wellFormed_of_TallyCalls (fun _ => 0) scenario5 0 _ (scenario5_tallies _ 0),
   by norm_num,
   by rw [TallyCallsWrap_of_range _ scenario5 0 (by norm_num), scenario5_tallies]; rfl,
   depth_of_root_and_subcalls (fun _ => 0) scenario5 0
    (wellFormed_of_TallyCalls (fun _ => 0) scenario5 0 _ (scenario5_tallies _ 0))
    (by norm_num)⟩

/-- C6: for a well-formed node `n`, the length of `TallyCalls n d` is one plus the number
of descendants of `n`. -/
theorem tallies_length (impl : F64 → Nat) (n : List (String × Value)) (d : Int)
    (hw : wellFormed n = true) :
    ∃ ts, TallyCalls impl n d = some ts ∧ ts.length = 1 + descendants n := by
  obtain ⟨t, rest, h⟩ := TallyCalls_of_wellFormed impl n d hw
  exact ⟨_, h, TallyCalls_length impl n d _ h⟩

/-- Witness of C6 on Scenario 5, a node with four descendants. -/
theorem tallies_length_witness :
    wellFormed scenario5 = true ∧ descendants scenario5 = 4 ∧
    ∃ ts, TallyCalls (fun _ => 0) scenario5 0 = some ts ∧
      ts.length = 1 + descendants scenario5 :=
  ⟨wellFormed_of_TallyCalls (fun _ => 0) scenario5 0 _ (scenario5_tallies _ 0),
   by
    have h := TallyCalls_length (fun _ => 0) scenario5 0 _ (scenario5_tallies _ 0)
    simp only [List.length_cons, List.length_nil] at h
    omega,
   tallies_length (fun _ => 0) scenario5 0
    (wellFormed_of_TallyCalls (fun _ => 0) scenario5 0 _ (scenario5_tallies _ 0))⟩

/-- C7: for a well-formed node `n`, `TallyCalls n d` is not empty and its first element, at
index 0 of the final result, carries `n.Msg.From`, `n.Msg.To` and `n.Msg.Method` converted
to `uint64`. -/
theorem first_tally_is_input_node (impl : F64 → Nat) (n : List (String × Value)) (d : Int)
    (hw : wellFormed n = true) :
    ∃ msg sender receiver method t rest,
      asMap (index n "Msg") = some msg ∧
      asString (index msg "From") = some sender ∧
      asString (index msg "To") = some receiver ∧
      asFloat64 (index msg "Method") = some method ∧
      TallyCalls impl n d = some (t :: rest) ∧
      t.From = sender ∧ t.To = receiver ∧ t.Method = toUint64 impl method := by
  obtain ⟨t, rest, h⟩ := TallyCalls_of_wellFormed impl n d hw
  obtain ⟨own, ho, hfrom, hto, -, hmeth, -⟩ := TallyCalls_head impl n d t rest h
  obtain ⟨msg, sender, receiver, method, h1, h2, h3, h4, h5, h6, h7⟩ :=
    ownTally_msg impl n d own ho
  exact ⟨msg, sender, receiver, method, t, rest, h1, h2, h3, h4, h,
    by rw [hfrom, h5], by rw [hto, h6], by rw [hmeth, h7]⟩

/-- Witness of C7 on Scenario 2. -/
theorem first_tally_is_input_node_witness :
    wellFormed scenario2 = true ∧
    ∃ msg sender receiver method t rest,
      asMap (index scenario2 "Msg") = some msg ∧
      asString (index msg "From") = some sender ∧
      asString (index msg "To") = some receiver ∧
      asFloat64 (index msg "Method") = some method ∧
      TallyCalls (fun _ => 0) scenario2 0 = some (t :: rest) ∧
      t.From = sender ∧ t.To = receiver ∧ t.Method = toUint64 (fun _ => 0) method :=
  ⟨wellFormed_of_TallyCalls (fun _ => 0) scenario2 0 _ (scenario2_tallies _ 0),
   first_tally_is_input_node (fun _ => 0) scenario2 0
    (wellFormed_of_TallyCalls (fun _ => 0) scenario2 0 _ (scenario2_tallies _ 0))⟩

/-- C8: `TallyCalls n d` succeeds exactly when `n` is well formed, that is when every node
of the subtree has `Msg` (a mapping with strings `From`, `To` and a number `Method`),
`GasCharges` (a sequence of mappings with a numeric `tg`) and a `Subcalls` that is absent,
`null` or a sequence of such nodes; otherwise it panics and returns no tallies, in
particular when some node of the subtree is not of that shape. -/
theorem TallyCalls_succeeds_iff_wellFormed (impl : F64 → Nat) (n : List (String × Value))
    (d : Int) :
    ((∃ ts, TallyCalls impl n d = some ts) ↔ wellFormed n = true) ∧
    (TallyCalls impl n d = none ↔ wellFormed n = false) ∧
    (∀ p m, nodeAt n p = some m → wellFormed m = false → TallyCalls impl n d = none) := by
  have h := TallyCalls_isSome_iff impl n d
  refine ⟨?_, ?_, ?_⟩
  · rw [← h, Option.isSome_iff_exists]
  rotate_left
  · intro p m hm hw
    cases ht : TallyCalls impl n d with
    | none => rfl
    | some ts =>
      obtain ⟨ms, -, -, hms, -, -⟩ := subtree_block impl p n d ts m ht hm
      have := wellFormed_of_TallyCalls impl m _ ms hms
      rw [hw] at this
      exact absurd this (by simp)
  · cases hw : wellFormed n with
    | true =>
      obtain ⟨ts, hts⟩ := Option.isSome_iff_exists.1 (h.2 hw)
      simp [hts]
    | false =>
      cases ht : TallyCalls impl n d with
      | none => simp
      | some ts =>
        have := h.1 (by rw [ht]; rfl)
        rw [hw] at this
        exact absurd this (by simp)

/-- C9: for a well-formed node `n` whose `Subcalls` is absent or `null` and every depth `d`,
`TallyCalls n d` returns exactly one tally, with `TotalGas = SelfGas` and `Depth = d`. -/
theorem leaf_tally (impl : F64 → Nat) (n : List (String × Value)) (d : Int)
    (hw : wellFormed n = true) (hleaf : isNil (index n "Subcalls") = true) :
    ∃ t, TallyCalls impl n d = some [t] ∧ t.TotalGas = t.SelfGas ∧ t.Depth = d := by
  obtain ⟨t, rest, h⟩ := TallyCalls_of_wellFormed impl n d hw
  obtain ⟨own, subs, ho, -, hf, hcons⟩ := (TallyCalls_eq_some impl n d _).1 h
  obtain ⟨hd, htot, hlt⟩ := ownTally_fields impl n d own ho
  rw [children_of_isNil n hleaf] at hf
  cases hf
  simp only [List.flatten_nil, List.cons.injEq] at hcons
  obtain ⟨rfl, rfl⟩ := hcons
  refine ⟨_, h, ?_, hd⟩
  simp only [accTotal, List.foldl_nil, Nat.add_zero, htot]
  exact Nat.mod_eq_of_lt hlt

/-- Witness of C9 on Scenario 1: charges `100` and `50`, no `Subcalls`, depth `0`. -/
theorem leaf_tally_witness :
    wellFormed scenario1 = true ∧ isNil (index scenario1 "Subcalls") = true ∧
    TallyCalls (fun _ => 0) scenario1 0 = some [⟨"f01", "f02", 0, 2, 150, 150⟩] ∧
    ∃ t, TallyCalls (fun _ => 0) scenario1 0 = some [t] ∧ t.TotalGas = t.SelfGas ∧
      t.Depth = 0 :=
  ⟨wellFormed_of_TallyCalls (fun _ => 0) scenario1 0 _ (scenario1_tallies _ 0),
   by simp [scenario1, mkNode, index, isNil],
   scenario1_tallies _ 0,
   leaf_tally (fun _ => 0) scenario1 0
    (wellFormed_of_TallyCalls (fun _ => 0) scenario1 0 _ (scenario1_tallies _ 0))
    (by simp [scenario1, mkNode, index, isNil])⟩

/-- C10: in `crongas`, for a well-formed trace and every `displayDepth`, the printed tally
lines are exactly the lines of the tallies with `Depth < displayDepth`, in the order of the
tally sequence, each `From->To:Method self:SelfGas total:TotalGas` behind two spaces per
level, and the line `Total gas: ` that follows carries the sum of the `SelfGas` of all
tallies, whatever `displayDepth` is: the tallies at or beyond `displayDepth` print no line
and are still counted, so the total line is the same for every two display depths. -/
theorem crongas_output (impl : F64 → Nat) (full value active trace : List (String × Value))
    (hv : asMap (index full "value") = some value)
    (ha : asMap (index value "active") = some active)
    (ht : asMap (index active "ExecutionTrace") = some trace)
    (hw : wellFormed trace = true) :
    ∃ ts, TallyCalls impl trace 0 = some ts ∧
      (∀ displayDepth : Int, crongas.main impl displayDepth full =
        ⟨(ts.filter (fun r => decide (r.Depth < displayDepth))).map (fun r =>
            String.join (List.replicate r.Depth.toNat "  ") ++ r.From ++ "->" ++ r.To ++
              ":" ++ fmtGrouped r.Method ++ " self:" ++ fmtGrouped r.SelfGas ++
              " total:" ++ fmtGrouped r.TotalGas ++ "\n") ++
          ["Total gas: " ++ fmtGrouped ((ts.map Tally.SelfGas).sum % 2 ^ 64) ++ "\n"],
          false⟩) ∧
      ∀ displayDepth displayDepth' : Int,
        (crongas.main impl displayDepth full).lines.getLast? =
            some ("Total gas: " ++ fmtGrouped ((ts.map Tally.SelfGas).sum % 2 ^ 64) ++ "\n") ∧
          (crongas.main impl displayDepth full).lines.getLast? =
            (crongas.main impl displayDepth' full).lines.getLast? := by
  obtain ⟨t, rest, h⟩ := TallyCalls_of_wellFormed impl trace 0 hw
  have hmain : ∀ displayDepth : Int, crongas.main impl displayDepth full =
      ⟨((t :: rest).filter (fun r => decide (r.Depth < displayDepth))).map (fun r =>
          String.join (List.replicate r.Depth.toNat "  ") ++ r.From ++ "->" ++ r.To ++
            ":" ++ fmtGrouped r.Method ++ " self:" ++ fmtGrouped r.SelfGas ++
            " total:" ++ fmtGrouped r.TotalGas ++ "\n") ++
        ["Total gas: " ++ fmtGrouped (((t :: rest).map Tally.SelfGas).sum % 2 ^ 64) ++ "\n"],
        false⟩ := fun displayDepth =>
    crongas.main_eq impl displayDepth full value active trace _ hv ha ht h
  refine ⟨_, h, hmain, fun displayDepth displayDepth' => ?_⟩
  rw [hmain displayDepth, hmain displayDepth']
  simp only [List.getLast?_concat, and_self]

/-- Witness of C10 on the document of Scenario 2, with the texts printed for the display
depths 2, 1 and 0. -/
theorem crongas_output_witness :
    wellFormed scenario2 = true ∧
    crongas.main (fun _ => 0) 2 (crongasDoc scenario2) =
      ⟨["f01->f02:2 self:10 total:30\n", "  f02->f03:3 self:20 total:20\n",
        "Total gas: 30\n"], false⟩ ∧
    crongas.main (fun _ => 0) 1 (crongasDoc scenario2) =
      ⟨["f01->f02:2 self:10 total:30\n", "Total gas: 30\n"], false⟩ ∧
    crongas.main (fun _ => 0) 0 (crongasDoc scenario2) = ⟨["Total gas: 30\n"], false⟩ ∧
    ∃ ts, TallyCalls (fun _ => 0) scenario2 0 = some ts ∧
      (∀ displayDepth : Int, crongas.main (fun _ => 0) displayDepth (crongasDoc scenario2) =
        ⟨(ts.filter (fun r => decide (r.Depth < displayDepth))).map (fun r =>
            String.join (List.replicate r.Depth.toNat "  ") ++ r.From ++ "->" ++ r.To ++
              ":" ++ fmtGrouped r.Method ++ " self:" ++ fmtGrouped r.SelfGas ++
              " total:" ++ fmtGrouped r.TotalGas ++ "\n") ++
          ["Total gas: " ++ fmtGrouped ((ts.map Tally.SelfGas).sum % 2 ^ 64) ++ "\n"],
          false⟩) ∧
      ∀ displayDepth displayDepth' : Int,
        (crongas.main (fun _ => 0) displayDepth (crongasDoc scenario2)).lines.getLast? =
            some ("Total gas: " ++ fmtGrouped ((ts.map Tally.SelfGas).sum % 2 ^ 64) ++ "\n") ∧
          (crongas.main (fun _ => 0) displayDepth (crongasDoc scenario2)).lines.getLast? =
            (crongas.main (fun _ => 0) displayDepth' (crongasDoc scenario2)).lines.getLast? :=
  ⟨wellFormed_of_TallyCalls (fun _ => 0) scenario2 0 _ (scenario2_tallies _ 0),
   by rw [crongas.main_eq (fun _ => 0) 2 (crongasDoc scenario2) _ _ scenario2 _ rfl rfl rfl
        (scenario2_tallies _ 0)]; decide,
   by rw [crongas.main_eq (fun _ => 0) 1 (crongasDoc scenario2) _ _ scenario2 _ rfl rfl rfl
        (scenario2_tallies _ 0)]; decide,
   by rw [crongas.main_eq (fun _ => 0) 0 (crongasDoc scenario2) _ _ scenario2 _ rfl rfl rfl
        (scenario2_tallies _ 0)]; decide,
   crongas_output (fun _ => 0) (crongasDoc scenario2) _ _ scenario2 rfl rfl rfl
    (wellFormed_of_TallyCalls (fun _ => 0) scenario2 0 _ (scenario2_tallies _ 0))⟩

/-- C12: in `crongas`, when some node of the trace, the root or any node below it, is not
well formed (for example lacks `Msg.From`), so that tallying fails, `main` aborts and has
printed nothing: no tally line and no total line. -/
theorem crongas_abort_prints_nothing (impl : F64 → Nat) (displayDepth : Int)
    (full value active trace : List (String × Value))
    (hv : asMap (index full "value") = some value)
    (ha : asMap (index value "active") = some active)
    (ht : asMap (index active "ExecutionTrace") = some trace)
    (hbad : ∃ p m, nodeAt trace p = some m ∧ wellFormed m = false) :
    TallyCalls impl trace 0 = none ∧
      crongas.main impl displayDepth full = ⟨[], true⟩ := by
  obtain ⟨p, m, hm, hw⟩ := hbad
  have h := TallyCalls_none_of_bad_node impl trace 0 p m hm hw
  exact ⟨h, crongas.main_abort impl displayDepth full value active trace hv ha ht h⟩

/-- Witness of C12: the tree of Scenario 2 with `Msg.From` missing in the subcall. -/
theorem crongas_abort_prints_nothing_witness :
    (∃ p m, nodeAt brokenTree p = some m ∧ wellFormed m = false) ∧
    TallyCalls (fun _ => 0) brokenTree 0 = none ∧
      crongas.main (fun _ => 0) 2147483647 (crongasDoc brokenTree) = ⟨[], true⟩ :=
  ⟨⟨[0], brokenChild, brokenTree_node, brokenChild_not_wellFormed⟩,
   crongas_abort_prints_nothing (fun _ => 0) 2147483647 (crongasDoc brokenTree) _ _
    brokenTree rfl rfl rfl ⟨[0], brokenChild, brokenTree_node, brokenChild_not_wellFormed⟩⟩

/-- C13 (as stated, refuted): `lotusgas` on a document whose first message is Scenario 1 and
whose second message has a trace that cannot be tallied aborts after it has written the
header row and the two lines of the first message. -/
theorem lotusgas_abort_after_output :
    lotusgas.TallyCalls (fun _ => 0) brokenTree 0 = none ∧
    lotusgas.main (fun _ => 0) (fun _ => "") 2147483647
        (lotusDoc [topMsg "bafy1" scenario1, topMsg "bafy2" brokenTree]) =
      ⟨["call\tself\ttotal\n", "bafy1\n", "f01→f02:2\t         150\t         150\n"],
        true⟩ := by
  refine ⟨by rw [lotusgas_TallyCalls_eq]; exact brokenTree_tallies _ 0, ?_⟩
  have h1 := block_topMsg (fun _ => 0) (fun _ => "") 2147483647 "bafy1" scenario1 _
    (scenario1_tallies _ 0)
  have h2 := block_topMsg_none (fun _ => 0) (fun _ => "") 2147483647 "bafy2" brokenTree
    (brokenTree_tallies _ 0)
  have hdoc : asSlice (index (lotusDoc [topMsg "bafy1" scenario1, topMsg "bafy2" brokenTree])
      "Trace") = some [topMsg "bafy1" scenario1, topMsg "bafy2" brokenTree] := rfl
  unfold lotusgas.main
  rw [hdoc]
  simp only []
  rw [lotusgas_mainLoop_cons_some _ _ _ _ _ _ _ h1, lotusgas_mainLoop_cons_none _ _ _ _ _ _ h2]
  decide

/-- C13 (amended): in `lotusgas`, when the trace of a top-level message cannot be tallied,
`main` aborts; what it has written before is the header row followed by the complete
blocks (label line and visible tally lines) of the messages before the failing one, and
nothing for the failing message or the messages after it. -/
theorem lotusgas_abort_output (impl : F64 → Nat) (other : Value → String)
    (displayDepth : Int) (full : List (String × Value)) (good : List Value) (bad : Value)
    (rest : List Value) (tm cid trace : List (String × Value))
    (hdoc : asSlice (index full "Trace") = some (good ++ bad :: rest))
    (hgood : ∀ m ∈ good, (lotusgas.block impl other displayDepth m).isSome = true)
    (hbad : asMap bad = some tm) (hcid : asMap (index tm "MsgCid") = some cid)
    (htr : asMap (index tm "ExecutionTrace") = some trace)
    (hfail : lotusgas.TallyCalls impl trace 0 = none) :
    lotusgas.main impl other displayDepth full =
      ⟨lotusgas.header ::
        (good.filterMap (lotusgas.block impl other displayDepth)).flatten, true⟩ := by
  have hb : lotusgas.block impl other displayDepth bad = none := by
    unfold lotusgas.block
    simp only [hbad, hcid, htr, hfail]
  unfold lotusgas.main
  rw [hdoc]
  simp only []
  rw [lotusgas_mainLoop_prefix_ok impl other displayDepth good _ _ hgood,
    lotusgas_mainLoop_cons_none _ _ _ _ _ _ hb]
  rfl

/-- Witness of C13 (amended): Scenario 1 followed by a message whose trace lacks
`Msg.From` in a subcall. -/
theorem lotusgas_abort_output_witness :
    lotusgas.TallyCalls (fun _ => 0) brokenTree 0 = none ∧
    lotusgas.main (fun _ => 0) (fun _ => "") 2147483647
        (lotusDoc ([topMsg "bafy1" scenario1] ++ topMsg "bafy2" brokenTree :: [])) =
      ⟨lotusgas.header :: ([topMsg "bafy1" scenario1].filterMap
        (lotusgas.block (fun _ => 0) (fun _ => "") 2147483647)).flatten, true⟩ :=
  ⟨by rw [lotusgas_TallyCalls_eq]; exact brokenTree_tallies _ 0,
   lotusgas_abort_output (fun _ => 0) (fun _ => "") 2147483647 _
    [topMsg "bafy1" scenario1] (topMsg "bafy2" brokenTree) [] _ _ brokenTree rfl
    (by
      intro m hm
      simp only [List.mem_singleton] at hm
      subst hm
      rw [block_topMsg _ _ _ _ _ _ (scenario1_tallies _ 0)]
      rfl)
    rfl rfl rfl (by rw [lotusgas_TallyCalls_eq]; exact brokenTree_tallies _ 0)⟩

/-- C14 (evaluation at the failing input): for a call with method id `1000` charged `5`,
`crongas` prints the method id as `1,000`, grouped like the gas values, while `lotusgas`
prints it as `1000` and groups only the gas values. -/
theorem method_id_rendering :
    crongas.main (fun _ => 0) 2147483647 (crongasDoc method1000Node) =
      ⟨["f01->f02:1,000 self:5 total:5\n", "Total gas: 5\n"], false⟩ ∧
    lotusgas.main (fun _ => 0) (fun _ => "") 2147483647
        (lotusDoc [topMsg "bafy1" method1000Node]) =
      ⟨["call\tself\ttotal\n", "bafy1\n", "f01→f02:1000\t           5\t           5\n"],
        false⟩ ∧
    crongas.lineOf ⟨"f01", "f02", 0, 1000, 1234567, 1234567⟩ =
      "f01->f02:1,000 self:1,234,567 total:1,234,567\n" ∧
    lotusgas.lineOf ⟨"f01", "f02", 0, 1000, 1234567, 1234567⟩ =
      "f01→f02:1000\t   1,234,567\t   1,234,567\n" := by
  refine ⟨?_, ?_, by decide, by decide⟩
  · rw [crongas.main_eq (fun _ => 0) 2147483647 (crongasDoc method1000Node) _ _
      method1000Node _ rfl rfl rfl (method1000Node_tallies _ 0)]
    decide
  · have h1 := block_topMsg (fun _ => 0) (fun _ => "") 2147483647 "bafy1" method1000Node _
      (method1000Node_tallies _ 0)
    have hdoc : asSlice (index (lotusDoc [topMsg "bafy1" method1000Node]) "Trace") =
        some [topMsg "bafy1" method1000Node] := rfl
    unfold lotusgas.main
    rw [hdoc]
    simp only []
    rw [lotusgas_mainLoop_cons_some _ _ _ _ _ _ _ h1]
    decide

/-- C15: in `lotusgas`, for a document whose top-level messages are mappings with a
mapping `MsgCid` and a well-formed `ExecutionTrace`, the output is the header row followed,
for each message in document order, by its label line and the lines of the tallies of
`TallyCalls(ExecutionTrace, 0)` above the display depth; the block of a message is
determined by that message alone. -/
theorem lotusgas_output (impl : F64 → Nat) (other : Value → String) (displayDepth : Int)
    (full : List (String × Value)) (msgs : List Value)
    (hdoc : asSlice (index full "Trace") = some msgs)
    (hok : ∀ m ∈ msgs, ∃ tm cid trace, asMap m = some tm ∧
      asMap (index tm "MsgCid") = some cid ∧
      asMap (index tm "ExecutionTrace") = some trace ∧ wellFormed trace = true) :
    ∃ blocks : List (List String),
      List.Forall₂ (fun m b => ∃ tm cid trace tallies, asMap m = some tm ∧
        asMap (index tm "MsgCid") = some cid ∧
        asMap (index tm "ExecutionTrace") = some trace ∧
        lotusgas.TallyCalls impl trace 0 = some tallies ∧
        b = lotusgas.labelLine other (index cid "/") ::
          (tallies.filter (fun r => decide (r.Depth < displayDepth))).map lotusgas.lineOf)
        msgs blocks ∧
      lotusgas.main impl other displayDepth full =
        ⟨lotusgas.header :: blocks.flatten, false⟩ := by
  have hsome : ∀ m ∈ msgs, (lotusgas.block impl other displayDepth m).isSome = true := by
    intro m hm
    obtain ⟨tm, cid, trace, h1, h2, h3, hw⟩ := hok m hm
    obtain ⟨t, rest, ht⟩ := TallyCalls_of_wellFormed impl trace 0 hw
    rw [← lotusgas_TallyCalls_eq] at ht
    rw [(block_eq_some_iff impl other displayDepth m _).2
      ⟨tm, cid, trace, _, h1, h2, h3, ht, rfl⟩]
    rfl
  refine ⟨msgs.filterMap (lotusgas.block impl other displayDepth), ?_, ?_⟩
  · clear hdoc hok
    induction msgs with
    | nil => exact List.Forall₂.nil
    | cons m rest ih =>
      obtain ⟨b, hb⟩ := Option.isSome_iff_exists.1 (hsome m (by simp))
      rw [List.filterMap_cons, hb]
      exact List.Forall₂.cons ((block_eq_some_iff impl other displayDepth m b).1 hb)
        (ih (fun m' hm' => hsome m' (List.mem_cons_of_mem _ hm')))
  · unfold lotusgas.main
    rw [hdoc]
    simp only []
    have := lotusgas_mainLoop_prefix_ok impl other displayDepth msgs [] [lotusgas.header]
      hsome
    rw [List.append_nil] at this
    rw [this, lotusgas.mainLoop]
    rfl

/-- Witness of C15: a document with the two messages Scenario 1 and Scenario 2. -/
theorem lotusgas_output_witness :
    lotusgas.main (fun _ => 0) (fun _ => "") 2
        (lotusDoc [topMsg "bafy1" scenario1, topMsg "bafy2" scenario2]) =
      ⟨["call\tself\ttotal\n", "bafy1\n", "f01→f02:2\t         150\t         150\n",
        "bafy2\n", "f01→f02:2\t          10\t          30\n",
        "  f02→f03:3\t          20\t          20\n"], false⟩ ∧
    ∃ blocks : List (List String),
      List.Forall₂ (fun m b => ∃ tm cid trace tallies, asMap m = some tm ∧
        asMap (index tm "MsgCid") = some cid ∧
        asMap (index tm "ExecutionTrace") = some trace ∧
        lotusgas.TallyCalls (fun _ => 0) trace 0 = some tallies ∧
        b = lotusgas.labelLine (fun _ => "") (index cid "/") ::
          (tallies.filter (fun r => decide (r.Depth < 2))).map lotusgas.lineOf)
        [topMsg "bafy1" scenario1, topMsg "bafy2" scenario2] blocks ∧
      lotusgas.main (fun _ => 0) (fun _ => "") 2
          (lotusDoc [topMsg "bafy1" scenario1, topMsg "bafy2" scenario2]) =
        ⟨lotusgas.header :: blocks.flatten, false⟩ :=
  ⟨by
    have h1 := block_topMsg (fun _ => 0) (fun _ => "") 2 "bafy1" scenario1 _
      (scenario1_tallies _ 0)
    have h2 := block_topMsg (fun _ => 0) (fun _ => "") 2 "bafy2" scenario2 _
      (scenario2_tallies _ 0)
    have hdoc : asSlice (index (lotusDoc [topMsg "bafy1" scenario1, topMsg "bafy2" scenario2])
        "Trace") = some [topMsg "bafy1" scenario1, topMsg "bafy2" scenario2] := rfl
    unfold lotusgas.main
    rw [hdoc]
    simp only []
    rw [lotusgas_mainLoop_cons_some _ _ _ _ _ _ _ h1,
      lotusgas_mainLoop_cons_some _ _ _ _ _ _ _ h2, lotusgas.mainLoop]
    decide,
   lotusgas_output (fun _ => 0) (fun _ => "") 2 _ _ rfl (by
    intro m hm
    simp only [List.mem_cons, List.mem_singleton, List.not_mem_nil, or_false] at hm
    rcases hm with rfl | rfl
    · exact ⟨_, _, scenario1, rfl, rfl, rfl,
        wellFormed_of_TallyCalls (fun _ => 0) scenario1 0 _ (scenario1_tallies _ 0)⟩
    · exact ⟨_, _, scenario2, rfl, rfl, rfl,
        wellFormed_of_TallyCalls (fun _ => 0) scenario2 0 _ (scenario2_tallies _ 0)⟩)⟩

/-- C16: the `TallyCalls` of `lotusgas.go` and the `TallyCalls` of `crongas.go` are the same
function: on every node and depth they panic together and otherwise return the same
tallies. -/
theorem TallyCalls_copies_agree (impl : F64 → Nat) (trace : List (String × Value))
    (depth : Int) :
    lotusgas.TallyCalls impl trace depth = TallyCalls impl trace depth ∧
    (lotusgas.TallyCalls impl trace depth = none ↔ TallyCalls impl trace depth = none) := by
  have h := lotusgas_TallyCalls_eq impl trace depth
  exact ⟨h, by rw [h]⟩

/-- C18: when the exact sum of the `SelfGas` of all tallies of `TallyCalls n d` is below
`2 ^ 64`, no `uint64` addition wraps around: every tally has `SelfGas <= TotalGas`, and for
every node the sum of its `SelfGas` and the `TotalGas` of its subcalls is below `2 ^ 64`,
is its `TotalGas`, and each subcall's `TotalGas` is at most that. -/
theorem no_wraparound_below_limit (impl : F64 → Nat) (n : List (String × Value)) (d : Int)
    (ts : List Tally) (h : TallyCalls impl n d = some ts)
    (hsum : (ts.map Tally.SelfGas).sum < 2 ^ 64) :
    (∀ t ∈ ts, t.SelfGas ≤ t.TotalGas) ∧
    ∀ p m, nodeAt n p = some m →
      ∃ t, ts[preorderIndex n p]? = some t ∧
        t.SelfGas + ((List.range (children m).length).map
          (fun j => totalGasAt ts (preorderIndex n (p ++ [j])))).sum < 2 ^ 64 ∧
        t.TotalGas = t.SelfGas + ((List.range (children m).length).map
          (fun j => totalGasAt ts (preorderIndex n (p ++ [j])))).sum ∧
        ∀ j, j < (children m).length →
          totalGasAt ts (preorderIndex n (p ++ [j])) ≤ t.TotalGas := by
  refine ⟨(TallyCalls_exact impl n d ts h hsum).2, ?_⟩
  intro p m hm
  obtain ⟨ms, pre, post, hms, hsplit, hlen⟩ := subtree_block impl p n d ts m h hm
  have hmsum : (ms.map Tally.SelfGas).sum < 2 ^ 64 := by
    rw [hsplit] at hsum
    simp only [List.map_append, List.sum_append] at hsum
    omega
  obtain ⟨own, subs, ho, -, hf, hcons⟩ := (TallyCalls_eq_some impl m _ ms).1 hms
  obtain ⟨-, hts, -⟩ := ownTally_fields impl m _ own ho
  have hlist := subcall_totals_eq impl n d ts h p m hm subs hf
  have hexact := (TallyCalls_exact impl m _ ms hms hmsum).1
  -- each subcall result carries its exact sum
  have hsubs : (subs.map headTotal).sum = (subs.flatten.map Tally.SelfGas).sum := by
    have hall : ∀ s ∈ subs, headTotal s = (s.map Tally.SelfGas).sum := by
      intro s hs
      obtain ⟨c, -, tc, rfl, hsc, -⟩ := forall₂_mem_right hf s hs
      have hle := sum_le_sum_flatten subs s hs
      rw [hcons] at hmsum
      simp only [List.map_cons, List.sum_cons] at hmsum
      exact (TallyCalls_exact impl tc _ s hsc (by omega)).1
    clear hf hlist hcons
    induction subs with
    | nil => rfl
    | cons s rest ih =>
      simp only [List.map_cons, List.sum_cons, List.flatten_cons, List.map_append,
        List.sum_append]
      rw [hall s (by simp), ih (fun s' hs' => hall s' (List.mem_cons_of_mem _ hs'))]
  obtain ⟨t, rest, hms', hidx⟩ := tally_at impl p n d ts m h hm
  rw [hms] at hms'
  simp only [Option.some.injEq] at hms'
  subst hms'
  simp only [List.cons.injEq] at hcons
  obtain ⟨rfl, rfl⟩ := hcons
  simp only [headTotal, List.map_cons, List.sum_cons] at hexact hmsum
  refine ⟨_, hidx, ?_, ?_, ?_⟩
  · rw [hlist, hsubs]
    exact hmsum
  · rw [hlist, hsubs]
    exact hexact
  · intro j hj
    have hmem : totalGasAt ts (preorderIndex n (p ++ [j])) ∈
        (List.range (children m).length).map
          (fun j => totalGasAt ts (preorderIndex n (p ++ [j]))) :=
      List.mem_map.2 ⟨j, List.mem_range.2 hj, rfl⟩
    have hle := le_sum_of_mem _ _ hmem
    rw [hlist, hsubs] at hle
    simp only at hexact ⊢
    omega

/-- Witness of C18 on Scenario 5, whose self gas adds up to 15. -/
theorem no_wraparound_below_limit_witness :
    ∃ ts, TallyCalls (fun _ => 0) scenario5 0 = some ts ∧
      (ts.map Tally.SelfGas).sum = 15 ∧ (ts.map Tally.SelfGas).sum < 2 ^ 64 ∧
      (∀ t ∈ ts, t.SelfGas ≤ t.TotalGas) ∧
      ∀ p m, nodeAt scenario5 p = some m →
        ∃ t, ts[preorderIndex scenario5 p]? = some t ∧
          t.SelfGas + ((List.range (children m).length).map
            (fun j => totalGasAt ts (preorderIndex scenario5 (p ++ [j])))).sum < 2 ^ 64 ∧
          t.TotalGas = t.SelfGas + ((List.range (children m).length).map
            (fun j => totalGasAt ts (preorderIndex scenario5 (p ++ [j])))).sum ∧
          ∀ j, j < (children m).length →
            totalGasAt ts (preorderIndex scenario5 (p ++ [j])) ≤ t.TotalGas :=
  ⟨_, scenario5_tallies _ 0, by decide, by decide,
   no_wraparound_below_limit (fun _ => 0) scenario5 0 _ (scenario5_tallies _ 0)
    (by decide)⟩

/-- C19 (as stated, refuted): on the tree of Scenario 2, `TallyCalls` at the depth
`2 ^ 63 - 2` gives the subcall the `Depth` `2 ^ 63 - 1`, and at the depth `2 ^ 63 - 2 + 1`
it gives the subcall the `Depth` `-2 ^ 63`, not `2 ^ 63 - 1 + 1`: the second result is not
the first one with every `Depth` increased by one. -/
theorem depth_offset_wraps_at_max_int :
    ∃ r c r' c' : Tally,
      (∀ impl : F64 → Nat, TallyCallsWrap impl scenario2 (2 ^ 63 - 2) = some [r, c]) ∧
      (∀ impl : F64 → Nat, TallyCallsWrap impl scenario2 (2 ^ 63 - 2 + 1) = some [r', c']) ∧
      wellFormed scenario2 = true ∧
      c.Depth = 9223372036854775807 ∧ c'.Depth = -9223372036854775808 ∧
      c'.Depth ≠ c.Depth + 1 ∧
      [r', c'] ≠ [r, c].map (fun t => { t with Depth := t.Depth + 1 }) := by
  refine ⟨⟨"f01", "f02", 9223372036854775806, 2, 10, 30⟩,
    ⟨"f02", "f03", 9223372036854775807, 3, 20, 20⟩,
    ⟨"f01", "f02", 9223372036854775807, 2, 10, 30⟩,
    ⟨"f02", "f03", -9223372036854775808, 3, 20, 20⟩, ?_, ?_, ?_, rfl, rfl, by norm_num,
    by decide⟩
  · intro impl
    rw [TallyCallsWrap_of_range impl scenario2 _ (by norm_num), scenario2_tallies]
    rfl
  · intro impl
    rw [TallyCallsWrap_of_range impl scenario2 _ (by norm_num), scenario2_tallies]
    rfl
  · exact wellFormed_of_TallyCalls (fun _ => 0) scenario2 0 _ (scenario2_tallies _ 0)

/-- C19 (amended): the depth argument of `TallyCalls` is only an offset of the `Depth`
labels in the arithmetic of the 64 bit `int`: for a depth `d` that is such an `int`,
`TallyCalls n (d + k)`, the sum being the one Go computes, is `TallyCalls n d` with every
`Depth` replaced by the Go sum `Depth + k` and all other fields unchanged; when no
`Depth + k` leaves the range `-2 ^ 63 .. 2 ^ 63 - 1` this is `TallyCalls n d` with every
`Depth` increased by `k`; and `TallyCalls n d` panics exactly when `TallyCalls n 0` does. -/
theorem depth_is_label_offset (impl : F64 → Nat) (n : List (String × Value)) (d k : Int)
    (hd : -2 ^ 63 ≤ d ∧ d < 2 ^ 63) :
    TallyCallsWrap impl n (wrapInt (d + k)) =
      (TallyCallsWrap impl n d).map
        (List.map (fun t => { t with Depth := wrapInt (t.Depth + k) })) ∧
    (∀ ts, TallyCallsWrap impl n d = some ts →
      (∀ t ∈ ts, -2 ^ 63 ≤ t.Depth + k ∧ t.Depth + k < 2 ^ 63) →
      TallyCallsWrap impl n (d + k) =
        some (ts.map (fun t => { t with Depth := t.Depth + k }))) ∧
    (TallyCallsWrap impl n d = none ↔ TallyCallsWrap impl n 0 = none) := by
  have h1 : TallyCallsWrap impl n (wrapInt (d + k)) =
      (TallyCallsWrap impl n d).map
        (List.map (fun t => { t with Depth := wrapInt (t.Depth + k) })) := by
    rw [TallyCallsWrap_eq, TallyCallsWrap_of_range impl n d hd, TallyCalls_shift]
    cases TallyCalls impl n d with
    | none => rfl
    | some ts =>
      simp only [Option.map_some', List.map_map, Option.some.injEq]
      refine List.map_congr_left (fun t _ => ?_)
      simp only [Function.comp_apply, wrapDepth, shiftDepth, wrapInt_add]
  refine ⟨h1, ?_, ?_⟩
  · intro ts hts hall
    have h0 := TallyCallsWrap_of_range impl n d hd
    rw [hts] at h0
    cases hu : TallyCalls impl n d with
    | none =>
      rw [hu] at h0
      exact absurd h0 (by simp)
    | some us =>
      rw [hu, Option.map_some', Option.some.injEq] at h0
      cases us with
      | nil => exact absurd rfl (TallyCalls_ne_nil impl n d _ hu)
      | cons u rest =>
        have hD := TallyCalls_head_depth impl n d u rest hu
        have hmem : wrapDepth u ∈ ts := by
          rw [h0]
          simp
        have hr := hall _ hmem
        have hwd : (wrapDepth u).Depth = d := by
          show wrapInt u.Depth = d
          rw [hD]
          exact wrapInt_of_range d hd
        rw [hwd] at hr
        rw [wrapInt_of_range (d + k) hr, hts, Option.map_some'] at h1
        rw [h1, Option.some.injEq]
        refine List.map_congr_left (fun t ht => ?_)
        rw [wrapInt_of_range _ (hall t ht)]
  · rw [TallyCallsWrap_of_range impl n d hd, TallyCallsWrap_of_range impl n 0 (by norm_num)]
    have h := TallyCalls_shift impl n 0 d
    rw [zero_add] at h
    rw [h]
    cases TallyCalls impl n 0 <;> simp

/-- Witness of C19 on Scenario 2, from the depth 0 to the depth 5. -/
theorem depth_is_label_offset_witness :
    (-2 ^ 63 ≤ (0 : Int) ∧ (0 : Int) < 2 ^ 63) ∧
    TallyCallsWrap (fun _ => 0) scenario2 0 =
      some [⟨"f01", "f02", 0, 2, 10, 30⟩, ⟨"f02", "f03", 1, 3, 20, 20⟩] ∧
    TallyCallsWrap (fun _ => 0) scenario2 5 =
      some [⟨"f01", "f02", 5, 2, 10, 30⟩, ⟨"f02", "f03", 6, 3, 20, 20⟩] ∧
    (TallyCallsWrap (fun _ => 0) scenario2 (wrapInt (0 + 5)) =
      (TallyCallsWrap (fun _ => 0) scenario2 0).map
        (List.map (fun t => { t with Depth := wrapInt (t.Depth + 5) })) ∧
    (∀ ts, TallyCallsWrap (fun _ => 0) scenario2 0 = some ts →
      (∀ t ∈ ts, -2 ^ 63 ≤ t.Depth + 5 ∧ t.Depth + 5 < 2 ^ 63) →
      TallyCallsWrap (fun _ => 0) scenario2 (0 + 5) =
        some (ts.map (fun t => { t with Depth := t.Depth + 5 }))) ∧
    (TallyCallsWrap (fun _ => 0) scenario2 0 = none ↔
      TallyCallsWrap (fun _ => 0) scenario2 0 = none)) :=
  ⟨by norm_num,
   by rw [TallyCallsWrap_of_range _ scenario2 0 (by norm_num), scenario2_tallies]; rfl,
   by rw [TallyCallsWrap_of_range _ scenario2 5 (by norm_num), scenario2_tallies]; rfl,
   depth_is_label_offset (fun _ => 0) scenario2 0 5 (by norm_num)⟩

